import Mathlib

/-!
# Verification of the auto-discern HTML-to-text transformation pipeline

Shallow embedding of `autodiscern/transformations.py` over `List Char`
strings.  Python's `str` operations (`replace`, `split`, `strip`, `in`,
`find`) and the concrete regular expressions used by the pipeline
(`' +'`, `'[.][. ]{2,}'`, `'[?][. ]{2,}'`, `'[!][. ]{2,}'`,
`'[.][. \n]{2,}'`, `'[?][. \n]{2,}'`, `'[!][. \n]{2,}'`, `'[ \n]{2,}'`,
`'<br[/]*>'`) are embedded as left-to-right scanners with the exact
leftmost / greedy semantics of `re.sub` and `str.replace`.  Python dicts
are embedded as insertion-ordered association lists with in-place update
semantics.
-/

namespace AutoDiscern

/-- Shorthand: the character list of a string literal. -/
def strL (s : String) : List Char := s.data

/-- Python whitespace, as used by `str.strip` / `str.lstrip`. -/
def isPyWs (c : Char) : Bool :=
  c = ' ' || c = '\t' || c = '\n' || c = '\r' || c = '\x0b' || c = '\x0c'

/-- The character class `[. ]`. -/
def clsA (c : Char) : Bool := c = '.' || c = ' '

/-- The character class `[. \n]`. -/
def clsB (c : Char) : Bool := c = '.' || c = ' ' || c = '\n'

/-- Boolean list-prefix test (Python startswith, used to find matches). -/
def pfxB : List Char → List Char → Bool
  | [], _ => true
  | _ :: _, [] => false
  | a :: as, b :: bs => a = b && pfxB as bs

/-- Boolean substring test: Python's `pat in s`. -/
def subB (pat : List Char) : List Char → Bool
  | [] => pfxB pat []
  | s@(_ :: t) => pfxB pat s || subB pat t

/-- `str.find`: index of the first occurrence of `pat`, if any. -/
def findSub (pat : List Char) : List Char → Option Nat
  | [] => if pfxB pat [] then some 0 else none
  | s@(_ :: t) =>
    if pfxB pat s then some 0
    else (findSub pat t).map (· + 1)

/-- `str.replace(pat, rep)` (all occurrences, single left-to-right pass).
The first argument is the number of characters still to skip after an
earlier match was consumed; structural recursion on the string. -/
def replaceAllAux (p : Char) (ps rep : List Char) : Nat → List Char → List Char
  | _ + 1, [] => []
  | n + 1, _ :: rest => replaceAllAux p ps rep n rest
  | 0, [] => []
  | 0, c :: rest =>
    if c = p && pfxB ps rest then rep ++ replaceAllAux p ps rep ps.length rest
    else c :: replaceAllAux p ps rep 0 rest

/-- `str.replace(pat, rep)` for a nonempty pattern (all the patterns the
source replaces are nonempty; an empty pattern is returned unchanged). -/
def replaceAll (pat rep s : List Char) : List Char :=
  match pat with
  | [] => s
  | p :: ps => replaceAllAux p ps rep 0 s

/-- `str.replace(pat, rep, 1)`: replace only the first occurrence. -/
def replaceOnce (pat rep : List Char) : List Char → List Char
  | [] => []
  | s@(c :: rest) =>
    match pat with
    | [] => s
    | p :: ps =>
      if c = p && pfxB ps rest then rep ++ rest.drop ps.length
      else c :: replaceOnce pat rep rest

/-- `str.split(sep)` with an explicit one-character separator: Python
keeps empty fields. -/
def pySplitAux (sep : Char) : List Char → List Char → List (List Char)
  | [], acc => [acc.reverse]
  | c :: t, acc =>
    if c = sep then acc.reverse :: pySplitAux sep t []
    else pySplitAux sep t (c :: acc)

/-- `str.split(sep)` for a one-character separator. -/
def pySplit (sep : Char) (s : List Char) : List (List Char) :=
  pySplitAux sep s []

/-- `str.lstrip()`. -/
def pyLstrip (s : List Char) : List Char := s.dropWhile isPyWs

/-- `str.rstrip()`. -/
def pyRstrip (s : List Char) : List Char :=
  (s.reverse.dropWhile isPyWs).reverse

/-- `str.strip()`. -/
def pyStrip (s : List Char) : List Char := pyLstrip (pyRstrip s)

/-- `re.sub(r' +', ' ', s)`: collapse every run of spaces to one space.
First argument: characters still to skip from an already-consumed run. -/
def collapseSpacesAux : Nat → List Char → List Char
  | _ + 1, [] => []
  | n + 1, _ :: rest => collapseSpacesAux n rest
  | 0, [] => []
  | 0, c :: rest =>
    if c = ' ' then ' ' :: collapseSpacesAux (rest.takeWhile (· = ' ')).length rest
    else c :: collapseSpacesAux 0 rest

/-- `re.sub(r' +', ' ', s)`. -/
def collapseSpaces (s : List Char) : List Char := collapseSpacesAux 0 s

/-- `re.sub(q ++ "[cls]{2,}", repl, s)` for a one-character prefix `q`
followed by a greedy run of at least two characters of class `cls`
(the shapes `[.][. ]{2,}`, `[?][. \n]{2,}`, … used by the normalizer).
First argument: characters still to skip from a consumed match. -/
def subQRunAux (q : Char) (cls : Char → Bool) (repl : List Char) :
    Nat → List Char → List Char
  | _ + 1, [] => []
  | n + 1, _ :: rest => subQRunAux q cls repl n rest
  | 0, [] => []
  | 0, c :: rest =>
    if c = q && 2 ≤ (rest.takeWhile cls).length then
      repl ++ subQRunAux q cls repl (rest.takeWhile cls).length rest
    else c :: subQRunAux q cls repl 0 rest

/-- `re.sub` for the `[q][cls]{2,}` patterns of the normalizer. -/
def subQRun (q : Char) (cls : Char → Bool) (repl : List Char) (s : List Char) :
    List Char := subQRunAux q cls repl 0 s

/-- `re.sub(r"[ \n]{2,}", ' \n', s)`: a greedy run of at least two
characters of class `cls` (with no prefix character) becomes `repl`. -/
def subRunAux (cls : Char → Bool) (repl : List Char) : Nat → List Char → List Char
  | _ + 1, [] => []
  | n + 1, _ :: rest => subRunAux cls repl n rest
  | 0, [] => []
  | 0, c :: rest =>
    if cls c && 1 ≤ (rest.takeWhile cls).length then
      repl ++ subRunAux cls repl (rest.takeWhile cls).length rest
    else c :: subRunAux cls repl 0 rest

/-- `re.sub(r"[cls]{2,}", repl, s)`. -/
def subRun (cls : Char → Bool) (repl : List Char) (s : List Char) : List Char :=
  subRunAux cls repl 0 s

/-- Recognize `br[/]*>` after an initial `<`; returns the remainder after
the closing `>` on success. -/
def matchBrTail : List Char → Option (List Char)
  | 'b' :: 'r' :: t =>
    match t.dropWhile (· = '/') with
    | '>' :: r => some r
    | _ => none
  | _ => none

/-- `re.sub(r'<br[/]*>', '\n', s)`.  First argument: characters still to
skip from a consumed match. -/
def subBrAux : Nat → List Char → List Char
  | _ + 1, [] => []
  | n + 1, _ :: rest => subBrAux n rest
  | 0, [] => []
  | 0, c :: rest =>
    if c = '<' then
      match matchBrTail rest with
      | some r => '\n' :: subBrAux (rest.length - r.length) rest
      | none => c :: subBrAux 0 rest
    else c :: subBrAux 0 rest

/-- `re.sub(r'<br[/]*>', '\n', s)`. -/
def subBr (s : List Char) : List Char := subBrAux 0 s

/-! ## String-based helper functions of `Transformer`
(`transformations.py`, "String-Based Helper functions" section). -/

/-- `Transformer.clear_non_rendered_html`: `text.replace('\n', ' ')`. -/
def clear_non_rendered_html (text : List Char) : List Char :=
  replaceAll ['\n'] [' '] text

/-- `Transformer.replace_chars`: replace every character of
`chars_to_replace` (in list order) by `replacement_char`. -/
def replace_chars (x : List Char) (chars_to_replace : List Char)
    (replacement_char : Char) : List Char :=
  chars_to_replace.foldl (fun acc p => replaceAll [p] [replacement_char] acc) x

/-- `Transformer.remove_newlines`: `replace_chars(x, ['\n'], ' ')`. -/
def remove_newlines (x : List Char) : List Char :=
  replace_chars x ['\n'] ' '

/-- The final step of the normalizer: `if len(text) > 0 and
text[0] == '.': text = text.replace('.', '', 1).lstrip()`. -/
def removeLeadingDot (t : List Char) : List Char :=
  if t.head? = some '.' then pyLstrip (replaceOnce ['.'] [] t) else t

/-- `Transformer.regex_out_punctuation_and_white_space`: clean up excess
whitespace and punctuation.  Faithful to the source ordering:
`'?.'→'?'`, space collapsing, the six `[q][cls]{2,}` substitutions, then
`lstrip` and removal of a single leading period. -/
def regex_out_punctuation_and_white_space (text : List Char) : List Char :=
  let t := replaceAll ['?', '.'] ['?'] text
  let t := collapseSpaces t
  let t := subQRun '.' clsA ['.', ' '] t
  let t := subQRun '?' clsA ['?', ' '] t
  let t := subQRun '!' clsA ['!', ' '] t
  let t := subQRun '.' clsB ['.', ' ', '\n'] t
  let t := subQRun '?' clsB ['?', ' ', '\n'] t
  let t := subQRun '!' clsB ['!', ' ', '\n'] t
  removeLeadingDot (pyLstrip t)

/-- `Transformer.condense_line_breaks`: collapse spaces and strip, turn
`<br[/]*>` into `'\n'`, then collapse `[ \n]{2,}` runs to `' \n'`. -/
def condense_line_breaks (text : List Char) : List Char :=
  let t := pyStrip (collapseSpaces text)
  let t := subBr t
  subRun (fun c => c = ' ' || c = '\n') [' ', '\n'] t

/-- `Transformer._to_paragraphs`: condense line breaks, then split on the
newline character. -/
def _to_paragraphs (x : List Char) : List (List Char) :=
  pySplit '\n' (condense_line_breaks x)

/-! ## HTML model

`transformations.py` delegates HTML parsing to BeautifulSoup with the
lenient `html.parser` backend.  The model below embeds the fragment of
that external interface the pipeline relies on (spec §4.1/§6): a tree of
elements, text nodes and comment/declaration nodes, built by a
left-to-right tokenizer.  Tag attributes are not represented: no claim
verified here depends on them (they are only consulted by the
keep-with-attributes and link-domain branches, which `_to_text` does not
use). -/

inductive HNode where
  | elem (name : List Char) (children : List HNode)
  | text (s : List Char)
  | comment (s : List Char)
  | decl (s : List Char)

inductive HTok where
  | openT (name : List Char) (selfClose : Bool)
  | closeT (name : List Char)
  | textT (s : List Char)
  | commentT (s : List Char)
  | declT (s : List Char)
  deriving DecidableEq

/-- Characters allowed in a tag name. -/
def isNameChar (c : Char) : Bool :=
  ('a' ≤ c && c ≤ 'z') || ('A' ≤ c && c ≤ 'Z') || ('0' ≤ c && c ≤ '9')

/-- Drop characters up to and including the first `'>'`. -/
def dropPastGt : List Char → List Char
  | [] => []
  | '>' :: t => t
  | _ :: t => dropPastGt t

/-- The text of a comment up to `-->`, with the remainder. -/
def splitComment : List Char → List Char × List Char
  | [] => ([], [])
  | '-' :: '-' :: '>' :: t => ([], t)
  | c :: t =>
    let (s, r) := splitComment t
    (c :: s, r)

/-- The characters up to (excluding) the first `'>'`. -/
def takeToGt : List Char → List Char
  | [] => []
  | '>' :: _ => []
  | c :: t => c :: takeToGt t

/-- HTML void elements (no contents), as known to the lenient parser. -/
def voidElems : List (List Char) :=
  [strL ("br"), strL ("hr"), strL ("img"), strL ("meta"), strL ("link"),
   strL ("input")]

/-- Tokenize an HTML string (fuel-driven; the fuel is at least the string
length, and every token consumes at least one character). -/
def tokenizeHtml : Nat → List Char → List HTok
  | 0, _ => []
  | _ + 1, [] => []
  | fuel + 1, s@(_ :: _) =>
    match s with
    | '<' :: '!' :: '-' :: '-' :: t =>
      let (com, r) := splitComment t
      HTok.commentT com :: tokenizeHtml fuel r
    | '<' :: '!' :: t => HTok.declT (takeToGt t) :: tokenizeHtml fuel (dropPastGt t)
    | '<' :: '/' :: t =>
      HTok.closeT (t.takeWhile isNameChar) :: tokenizeHtml fuel (dropPastGt t)
    | '<' :: t =>
      if (t.headD ' ').isAlpha then
        let name := t.takeWhile isNameChar
        let inside := takeToGt t
        HTok.openT name (inside.getLast? = some '/') :: tokenizeHtml fuel (dropPastGt t)
      else HTok.textT ['<'] :: tokenizeHtml fuel t
    | _ =>
      let chunk := s.takeWhile (· ≠ '<')
      HTok.textT chunk :: tokenizeHtml fuel (s.dropWhile (· ≠ '<'))

/-- Close all still-open elements at end of input. -/
def unwindStack : List (List Char × List HNode) → List HNode → List HNode
  | [], acc => acc.reverse
  | (n, pacc) :: st, acc => unwindStack st (HNode.elem n acc.reverse :: pacc)

/-- Build the node forest from the token stream (stack of open elements;
a stray close tag is ignored, unclosed tags are closed at the end). -/
def buildNodes : List HTok → List (List Char × List HNode) → List HNode → List HNode
  | [], stack, acc => unwindStack stack acc
  | tok :: rest, stack, acc =>
    match tok with
    | .textT s => buildNodes rest stack (HNode.text s :: acc)
    | .commentT s => buildNodes rest stack (HNode.comment s :: acc)
    | .declT s => buildNodes rest stack (HNode.decl s :: acc)
    | .openT name selfClose =>
      if selfClose || voidElems.contains name then
        buildNodes rest stack (HNode.elem name [] :: acc)
      else buildNodes rest ((name, acc) :: stack) []
    | .closeT _ =>
      match stack with
      | [] => buildNodes rest [] acc
      | (n, pacc) :: st => buildNodes rest st (HNode.elem n acc.reverse :: pacc)

/-- `BeautifulSoup(x, features="html.parser")`, for the modeled fragment. -/
def parseHtml (s : List Char) : List HNode :=
  buildNodes (tokenizeHtml (s.length + 1) s) [] []

/-- `Transformer.remove_tags_and_contents` on a forest: delete elements
whose tag is listed, including their entire contents (`tag.decompose`).
Fuel-driven structural recursion over the nested tree (one unit of fuel
per node or list step; callers pass a bound exceeding the tree size). -/
def removeTagsL (tags : List (List Char)) : Nat → List HNode → List HNode
  | 0, _ => []
  | _ + 1, [] => []
  | fuel + 1, HNode.elem name children :: rest =>
    (if tags.contains name then []
     else [HNode.elem name (removeTagsL tags fuel children)])
      ++ removeTagsL tags fuel rest
  | fuel + 1, n :: rest => n :: removeTagsL tags fuel rest

/-- `Transformer.remove_other_xml` on a forest: extract comment,
declaration, doctype (and kindred) nodes, keeping everything else. -/
def removeOtherXmlL : Nat → List HNode → List HNode
  | 0, _ => []
  | _ + 1, [] => []
  | fuel + 1, HNode.comment _ :: rest => removeOtherXmlL fuel rest
  | fuel + 1, HNode.decl _ :: rest => removeOtherXmlL fuel rest
  | fuel + 1, HNode.elem name children :: rest =>
    HNode.elem name (removeOtherXmlL fuel children) :: removeOtherXmlL fuel rest
  | fuel + 1, n :: rest => n :: removeOtherXmlL fuel rest

/-- Look up a tag's replacement pair, falling back to the default
(`tags_to_replace_with_str.get(tag.name, default_replacement_tuple)`). -/
def replLookup (m : List (List Char × List Char × List Char))
    (name : List Char) (dflt : List Char × List Char) : List Char × List Char :=
  match m.find? (fun p => p.1 = name) with
  | some p => p.2
  | none => dflt

/-- `Transformer.replace_html` on a forest: every tag in one of the keep
sets is rendered with its tag markup; every other tag is unwrapped, its
(start, end) replacement strings (defaulting to the default pair)
surrounding its serialized contents.  Fuel-driven like `removeTagsL`. -/
def replaceHtmlL (keep keepAttr : List (List Char))
    (replMap : List (List Char × List Char × List Char)) (dflt : List Char) :
    Nat → List HNode → List Char
  | 0, _ => []
  | _ + 1, [] => []
  | fuel + 1, HNode.text s :: rest =>
    s ++ replaceHtmlL keep keepAttr replMap dflt fuel rest
  | fuel + 1, HNode.comment s :: rest =>
    strL ("<!--") ++ s ++ strL ("-->")
      ++ replaceHtmlL keep keepAttr replMap dflt fuel rest
  | fuel + 1, HNode.decl s :: rest =>
    strL ("<!") ++ s ++ strL (">")
      ++ replaceHtmlL keep keepAttr replMap dflt fuel rest
  | fuel + 1, HNode.elem name children :: rest =>
    let inner := replaceHtmlL keep keepAttr replMap dflt fuel children
    (if keepAttr.contains name || keep.contains name then
      '<' :: name ++ '>' :: inner ++ '<' :: '/' :: name ++ ['>']
     else
      let r := replLookup replMap name (dflt, dflt)
      r.1 ++ inner ++ r.2)
      ++ replaceHtmlL keep keepAttr replMap dflt fuel rest

/-- `html.unescape` (external), modeled on the named/numeric entities the
pipeline's inputs use. -/
def pyUnescape (s : List Char) : List Char :=
  let t := replaceAll (strL ("&nbsp;")) ['\xa0'] s
  let t := replaceAll (strL ("&lt;")) ['<'] t
  let t := replaceAll (strL ("&gt;")) ['>'] t
  let t := replaceAll (strL ("&quot;")) ['"'] t
  let t := replaceAll (strL ("&#39;")) ['\''] t
  replaceAll (strL ("&amp;")) ['&'] t

/-- `Transformer.soup_to_text_with_tags`: serialize and HTML-unescape.
The serialization itself is performed by `replaceHtmlL`; this step adds
the `html.unescape`. -/
def soup_to_text_with_tags (serialized : List Char) : List Char :=
  pyUnescape serialized

/-- The `tags_to_replace` table of `Transformer._to_text`. -/
def toTextReplMap : List (List Char × List Char × List Char) :=
  [ (strL ("br"), (strL (".\n"), strL (".\n"))),
    (strL ("h1"), (strL ("\n"), strL (". \n"))),
    (strL ("h2"), (strL ("\n"), strL (". \n"))),
    (strL ("h3"), (strL ("\n"), strL (". \n"))),
    (strL ("h4"), (strL ("\n"), strL (". \n"))),
    (strL ("p"), (strL ("\n"), strL (". \n"))),
    (strL ("div"), (strL ("\n"), strL (". \n"))) ]

/-- `Transformer._to_text`: the plain-text reducer selected when
`leave_some_html` is false. -/
def _to_text (x : List Char) : List Char :=
  let cx := clear_non_rendered_html x
  let fl := cx.length * 2 + 8
  let nodes := parseHtml cx
  let nodes := removeTagsL [strL ("style"), strL ("script")] fl nodes
  let nodes := removeOtherXmlL fl nodes
  let text := soup_to_text_with_tags (replaceHtmlL [] [] toTextReplMap [] fl nodes)
  let text := replace_chars text ['\t', '\xa0'] ' '
  let text := regex_out_punctuation_and_white_space text
  condense_line_breaks text

/-! ## Record model

Pipeline records are Python dicts mapping field names to values.  They
are embedded as insertion-ordered association lists with Python's dict
update semantics (updating an existing key keeps its position, a new key
is appended).  The values flowing through the pipeline are strings,
lists of strings, and non-negative integers. -/

/-- A Python value, as used by the pipeline's records. -/
inductive Val where
  | s (v : List Char)
  | xs (v : List (List Char))
  | n (v : Nat)
  deriving DecidableEq

/-- A record: one Python dict (insertion-ordered field list). -/
abbrev AList := List (List Char × Val)

/-- A keyed mapping of records (`Dict[id, Dict]`). -/
abbrev KMap := List (Val × AList)

/-- Dict read `d[k]` (`none` models a KeyError). -/
def dGet : AList → List Char → Option Val
  | [], _ => none
  | (k', v) :: rest, k => if k' = k then some v else dGet rest k

/-- Python `k in d.keys()`. -/
def dHasKey (d : AList) (k : List Char) : Bool :=
  (dGet d k).isSome

/-- Dict write `d[k] = v`: update in place if present, else append. -/
def dSet : AList → List Char → Val → AList
  | [], k, v => [(k, v)]
  | (k', v') :: rest, k, v =>
    if k' = k then (k, v) :: rest else (k', v') :: dSet rest k v

/-- `{key: obj[key] for key in obj if key != 'content'}`. -/
def dDropContent : AList → AList
  | [] => []
  | p :: rest =>
    if p.1 = strL ("content") then dDropContent rest else p :: dDropContent rest

/-- Keyed-map read. -/
def kGet : KMap → Val → Option AList
  | [], _ => none
  | (k', v) :: rest, k => if k' = k then some v else kGet rest k

/-- Keyed-map write, with dict update semantics. -/
def kSet : KMap → Val → AList → KMap
  | [], k, v => [(k, v)]
  | (k', v') :: rest, k, v =>
    if k' = k then (k, v) :: rest else (k', v') :: kSet rest k v

/-- The decimal digit characters. -/
def digitChar : Nat → Char
  | 0 => '0' | 1 => '1' | 2 => '2' | 3 => '3' | 4 => '4'
  | 5 => '5' | 6 => '6' | 7 => '7' | 8 => '8' | _ => '9'

/-- Decimal digits of a natural number (fuel-driven, fuel ≥ number). -/
def natToCharsAux : Nat → Nat → List Char
  | 0, _ => []
  | fuel + 1, n =>
    if n < 10 then [digitChar n]
    else natToCharsAux fuel (n / 10) ++ [digitChar (n % 10)]

/-- Python `str(n)` for a non-negative int. -/
def natToChars (n : Nat) : List Char := natToCharsAux (n + 1) n

/-- Python `str(v)` / `"{}".format(v)` on a pipeline value. -/
def pyStrVal : Val → List Char
  | Val.s v => v
  | Val.n v => natToChars v
  | Val.xs v =>
    '[' :: (List.intercalate (strL (", "))
      (v.map (fun w => '\'' :: w ++ ['\'']))) ++ [']']

/-- `get_id`: identifier of a record — `d['id']` (or `d['entity_id']` if
`id` is absent), formatted as `"{id}-{sub_id}"` when `sub_id` is present.
`none` models the KeyError raised when neither id key exists. -/
def get_id (d : AList) : Option Val :=
  let id_key :=
    if ¬ dHasKey d (strL ("id")) && dHasKey d (strL ("entity_id")) then
      strL ("entity_id")
    else strL ("id")
  match dGet d id_key with
  | none => none
  | some identifier =>
    if dHasKey d (strL ("sub_id")) then
      match dGet d (strL ("sub_id")) with
      | none => none
      | some sub => some (Val.s (pyStrVal identifier ++ '-' :: pyStrVal sub))
    else some identifier

/-- `convert_list_of_dicts_to_dict_of_dicts`: build the keyed mapping
`{get_id(d): d}` over the list, in order. -/
def convert_list_of_dicts_to_dict_of_dicts_aux (acc : KMap) :
    List AList → Option KMap
  | [] => some acc
  | d :: rest =>
    match get_id d with
    | none => none
    | some i => convert_list_of_dicts_to_dict_of_dicts_aux (kSet acc i d) rest

/-- `convert_list_of_dicts_to_dict_of_dicts`. -/
def convert_list_of_dicts_to_dict_of_dicts (input_list : List AList) :
    Option KMap :=
  convert_list_of_dicts_to_dict_of_dicts_aux [] input_list

/-- The children produced from one record by `_flatten_text_dicts`:
`enumerate(parent_dict['content'])`, one child per element, all fields
except `content` copied, `content` set to the element and `sub_id` to its
index.  Iterating a string iterates its characters (Python semantics);
`none` models KeyError (no `content`) or TypeError (non-iterable). -/
def flattenChildren (parent : AList) : Option (List AList) :=
  let mk : Nat → List Char → AList := fun num seg =>
    dSet (dSet (dDropContent parent) (strL ("content")) (Val.s seg))
      (strL ("sub_id")) (Val.n num)
  match dGet parent (strL ("content")) with
  | some (Val.xs l) => some (l.enum.map (fun p => mk p.1 p.2))
  | some (Val.s cs) => some (cs.enum.map (fun p => mk p.1 [p.2]))
  | _ => none

/-- `Transformer._flatten_text_dicts`. -/
def _flatten_text_dicts : List AList → Option (List AList)
  | [] => some []
  | p :: rest => do
    let cs ← flattenChildren p
    let r ← _flatten_text_dicts rest
    pure (cs ++ r)

/-! ## Annotation functions -/

/-- The plain-text anchor marker. -/
def linkMarker : List Char := strL ("thisisalinktag")

/-- The `tags` table of `_annotate_and_clean_html`, in its fixed (dict
insertion) iteration order. -/
def tagsTable : List (List Char × List Char) :=
  [ (strL ("thisisah1tag"), strL ("h1")),
    (strL ("thisisah2tag"), strL ("h2")),
    (strL ("thisisah3tag"), strL ("h3")),
    (strL ("thisisah4tag"), strL ("h4")),
    (strL ("thisisalinktag"), strL ("a")),
    (strL ("thisisalistitemtag"), strL ("li")),
    (strL ("thisisatablerowtag"), strL ("tr")) ]

/-- `Transformer._retrieve_domain_from_plaintexttag`: split a token into
the text before the anchor marker and the domain glued to the marker. -/
def _retrieve_domain_from_plaintexttag (token : List Char) :
    List Char × List Char :=
  let tad :=
    match findSub linkMarker token with
    | some i => token.drop i
    | none => token.drop (token.length - 1)
  let domain := replaceAll linkMarker [] tad
  let cleaned_token := replaceAll tad [] token
  (cleaned_token, domain)

/-- One step of the anchor-token scan of `_annotate_and_clean_html`:
the fold over `content.split(' ')` building `text_without_tags` and
appending extracted domains. -/
def linkTokenStep (st : List Char × List (List Char)) (token : List Char) :
    List Char × List (List Char) :=
  if subB linkMarker token then
    let r := _retrieve_domain_from_plaintexttag token
    (if ¬ r.1 = [] then st.1 ++ r.1 ++ [' '] else st.1, st.2 ++ [r.2])
  else
    (if ¬ token = [] then st.1 ++ token ++ [' '] else st.1, st.2)

/-- The marker loop of `_annotate_and_clean_html`: iterate the `tags`
table in order over the record, accumulating `found_tags` and `domains`.
`none` models the KeyError when `content` is absent or not a string. -/
def annotHtmlLoop (extract_domains : Bool) :
    List (List Char × List Char) → AList → List (List Char) →
    List (List Char) → Option (AList × List (List Char) × List (List Char))
  | [], d, found, doms => some (d, found, doms)
  | (mk, tag) :: rest, d, found, doms =>
    match dGet d (strL ("content")) with
    | some (Val.s c) =>
      if subB mk c then
        if mk = linkMarker ∧ extract_domains = true then
          let st := (pySplit ' ' c).foldl linkTokenStep ([], [])
          annotHtmlLoop extract_domains rest
            (dSet d (strL ("content")) (Val.s (pyRstrip st.1)))
            (found ++ [tag]) (doms ++ st.2)
        else
          annotHtmlLoop extract_domains rest
            (dSet d (strL ("content")) (Val.s (pyStrip (replaceAll mk [' '] c))))
            (found ++ [tag]) doms
      else annotHtmlLoop extract_domains rest d found doms
    | _ => none

/-- `Transformer._annotate_and_clean_html`: record the tag names whose
plain-text markers occur in `content` (stripping the markers, and for the
anchor marker extracting the glued domains), then set `html_tags` and
`domains`.  `extract_domains` is the source's keyword argument (default
`True` at every call site). -/
def _annotate_and_clean_html (d : AList) (extract_domains : Bool) :
    Option AList :=
  match annotHtmlLoop extract_domains tagsTable d [] [] with
  | none => none
  | some (d', found, doms) =>
    some (dSet (dSet d' (strL ("html_tags")) (Val.xs found))
      (strL ("domains")) (Val.xs doms))

/-- `Transformer._annotate_internal_external_links`.  The external
`tldextract.extract(url).domain` capability (spec §6) is passed in as the
`extract` function.  A record without `url` passes through unchanged
(the printed warning has no record-level effect); `none` models the
KeyError/TypeError when `domains` is absent or `url` is not a string. -/
def _annotate_internal_external_links (extract : List Char → List Char)
    (d : AList) : Option AList :=
  if ¬ dHasKey d (strL ("url")) then some d
  else
    match dGet d (strL ("url")) with
    | some (Val.s url) =>
      let source_domain := extract url
      match dGet d (strL ("domains")) with
      | some (Val.xs ds) =>
        let lt := ds.map (fun link =>
          if link = strL ("NA") then strL ("internal")
          else if link = source_domain then strL ("internal")
          else strL ("external"))
        some (dSet d (strL ("link_type")) (Val.xs lt))
      | _ => none
    | _ => none

/-! ## Pipeline executor

`Transformer.apply` and its helpers, parameterized by the configured
transform and annotation-pass lists (spec §4.5).  `multiprocessing`'s
`Pool.map` is an order-preserving map of a pure per-record worker over
the input list (spec §5: bounded pool, order-preserving gather), so
`apply_in_parallel` is embedded as the library traversal `List.mapM`
while `apply_in_series` is the source's explicit accumulation loop.
Workers are `Option`-valued: `none` models a raised per-record error,
which aborts the batch in both modes. -/

/-- `Transformer.apply_in_parallel` (pool.map model). -/
def apply_in_parallel (worker : α → Option β) (input_list : List α) :
    Option (List β) :=
  input_list.mapM worker

/-- `Transformer.apply_in_series`: `for i in input_list:
results.append(worker(i))`. -/
def apply_in_series (worker : α → Option β) : List α → Option (List β)
  | [] => some []
  | i :: rest => do
    let r ← worker i
    let rs ← apply_in_series worker rest
    pure (r :: rs)

/-- A pipeline configuration: the constructed transform/annotation-pass
lists together with the execution options. -/
structure TransformerCfg where
  transforms : List (Val → Val)
  annotPasses : List (AList → Option AList)
  parallelism : Bool
  flatten : Bool
  num_cores : Nat

/-- `Transformer._apply_transforms_to_str`: fold the transform list over
the content value. -/
def _apply_transforms_to_str (cfg : TransformerCfg) (content : Val) : Val :=
  cfg.transforms.foldl (fun c f => f c) content

/-- `Transformer._transform_worker`: copy every field but `content`, then
set `content` to the transformed value. -/
def _transform_worker (cfg : TransformerCfg) (obj : AList) : Option AList :=
  match dGet obj (strL ("content")) with
  | none => none
  | some c =>
    some (dSet (dDropContent obj) (strL ("content"))
      (_apply_transforms_to_str cfg c))

/-- `Transformer._apply_annotations_to_dict` /
`Transformer._annotation_worker`: fold the annotation passes. -/
def annotWorker (cfg : TransformerCfg) (obj : AList) : Option AList :=
  cfg.annotPasses.foldlM (fun d f => f d) obj

/-- `Transformer._apply_transforms`: dispatch on the parallelism flag. -/
def _apply_transforms (cfg : TransformerCfg) (input_list : List AList) :
    Option (List AList) :=
  if cfg.parallelism then apply_in_parallel (_transform_worker cfg) input_list
  else apply_in_series (_transform_worker cfg) input_list

/-- `Transformer._apply_annotations`: dispatch on the parallelism flag. -/
def _apply_annotations (cfg : TransformerCfg) (input_list : List AList) :
    Option (List AList) :=
  if cfg.parallelism then apply_in_parallel (annotWorker cfg) input_list
  else apply_in_series (annotWorker cfg) input_list

/-- `Transformer.apply`: transforms, optional flattening, annotation
passes, then re-keying by `get_id`. -/
def transformerApply (cfg : TransformerCfg) (inputs : KMap) : Option KMap := do
  let input_list := inputs.map (fun p => p.2)
  let result ← _apply_transforms cfg input_list
  let result ← if cfg.flatten then _flatten_text_dicts result else pure result
  let result ← _apply_annotations cfg result
  convert_list_of_dicts_to_dict_of_dicts result

/-! ## Transformer construction (`Transformer.__init__`)

The constructor only assembles the transform/annotation lists from the
flags; the embedded record stores tags naming the selected instance
methods.  The only validation is the `segment_into` check, whose failure
is the raised `ValueError` (embedded as `Except.error` with the
formatted message). -/

inductive TransTag where
  | toLimitedHtmlPlainText | toLimitedHtml | toText
  | toWords | toSentences | toParagraphs
  | removeNewlinesT | regexOutPunctT
  deriving DecidableEq

inductive AnnotTag where
  | cleanHtmlTag | intExtLinksTag
  deriving DecidableEq

structure TransformerRec where
  transforms : List TransTag
  annotPasses : List AnnotTag
  parallelism : Bool
  num_cores : Nat
  flatten : Bool
  segmentation_type : Option (List Char)
  deriving DecidableEq

/-- The recognized word-segmentation mode strings. -/
def wordModes : List (List Char) := [strL ("w"), strL ("word"), strL ("words")]

/-- The recognized sentence-segmentation mode strings. -/
def sentModes : List (List Char) :=
  [strL ("s"), strL ("sent"), strL ("sents"), strL ("sentence"),
   strL ("sentences")]

/-- The recognized paragraph-segmentation mode strings. -/
def paraModes : List (List Char) :=
  [strL ("p"), strL ("para"), strL ("paragraph"), strL ("paragraphs")]

/-- `Transformer.__init__`.  Console warnings have no record-level
effect; the tokenizer capabilities instantiated in the segmentation
branches are external and not validated. -/
def transformerInit (leave_some_html html_to_plain_text : Bool)
    (segment_into : Option (List Char))
    (remove_newlines flatten annotate_html parallelism : Bool)
    (num_cores : Nat) : Except (List Char) TransformerRec :=
  let cleaning :=
    if leave_some_html then
      if html_to_plain_text then [TransTag.toLimitedHtmlPlainText]
      else [TransTag.toLimitedHtml]
    else [TransTag.toText]
  let segStep : Except (List Char) (List TransTag × Option (List Char)) :=
    match segment_into with
    | none => Except.ok ([], none)
    | some s =>
      if wordModes.contains s then
        Except.ok ([TransTag.toWords], some (strL ("words")))
      else if sentModes.contains s then
        Except.ok ([TransTag.toSentences], some (strL ("sentences")))
      else if paraModes.contains s then
        Except.ok ([TransTag.toParagraphs], some (strL ("paragraphs")))
      else Except.error (strL ("Invalid segment_type: ") ++ s)
  match segStep with
  | Except.error e => Except.error e
  | Except.ok (segTransforms, segType) =>
    let transforms := cleaning ++ segTransforms
    let transforms :=
      transforms ++
        (if remove_newlines then
          [TransTag.removeNewlinesT, TransTag.regexOutPunctT]
         else [])
    let annots :=
      if annotate_html then [AnnotTag.cleanHtmlTag, AnnotTag.intExtLinksTag]
      else []
    Except.ok
      { transforms := transforms, annotPasses := annots,
        parallelism := parallelism, num_cores := num_cores,
        flatten := flatten, segmentation_type := segType }

/-- The set of recognized `segment_into` strings. -/
def recognizedMode (s : List Char) : Bool :=
  wordModes.contains s || sentModes.contains s || paraModes.contains s

/-! ## Predicates used by the verification -/

/-- No two adjacent spaces anywhere in the string. -/
def noDS : List Char → Prop
  | [] => True
  | c :: t => (c = ' ' → t.head? ≠ some ' ') ∧ noDS t

/-- The trailing-run shape left behind a `.`, `?` or `!` by the
normalizer: at most one `[. \n]` character, or exactly `" \n"`. -/
def runOK (rest : List Char) : Prop :=
  (rest.takeWhile clsB).length ≤ 1 ∨ rest.takeWhile clsB = [' ', '\n']

/-- Every occurrence of `q` is followed by a `runOK` tail. -/
def okAfter (q : Char) : List Char → Prop
  | [] => True
  | c :: t => (c = q → runOK t) ∧ okAfter q t

/-- The marker strings of the `tags` table, in iteration order. -/
def markers : List (List Char) := tagsTable.map (fun p => p.1)

/-- Non-interference conditions for a pair of distinct markers `X`
(being replaced) and `Y` (being observed): no occurrence of one may
start strictly inside, or overlap the boundary of, an occurrence of the
other.  All four clauses are decidable bounded checks. -/
def pairOK (X Y : List Char) : Prop :=
  (∀ p, p < X.length → pfxB Y (X.drop p) = false) ∧
  (∀ p, p < X.length → pfxB (X.drop p) Y = false) ∧
  (∀ q, q < Y.length → 0 < q → pfxB X (Y.drop q) = false) ∧
  (∀ q, q < Y.length → 0 < q → pfxB (Y.drop q) X = false)

instance pairOKDecidable (X Y : List Char) : Decidable (pairOK X Y) := by
  unfold pairOK
  infer_instance

/-! Concrete fixture records used by counterexamples and witnesses. -/

/-- C4 counterexample content: the h2 marker occurs before the h1
marker. -/
def c4content : List Char := strL ("thisisah2tag thisisah1tag")

/-- C4 counterexample record. -/
def c4record : AList := [(strL ("content"), Val.s c4content)]

/-- C4 witness content. -/
def c4wContent : List Char := strL ("foo thisisah2tag bar thisisah1tag")

/-- C4 witness record. -/
def c4wRecord : AList :=
  [(strL ("id"), Val.n 3), (strL ("content"), Val.s c4wContent)]

/-! # Theorems -/

/-! ## Dictionary lemmas -/

theorem dGet_dSet_same (d : AList) (k : List Char) (v : Val) :
    dGet (dSet d k v) k = some v := by
  induction d with
  | nil => simp [dSet, dGet]
  | cons p rest ih =>
    obtain ⟨k', v'⟩ := p
    by_cases h : k' = k
    · simp [dSet, h, dGet]
    · simp [dSet, h, dGet, ih]

theorem dGet_dSet_ne (d : AList) (k k' : List Char) (v : Val) (h : ¬ k' = k) :
    dGet (dSet d k v) k' = dGet d k' := by
  have h' : ¬ k = k' := fun hh => h hh.symm
  induction d with
  | nil => simp [dSet, dGet, h']
  | cons p rest ih =>
    obtain ⟨k'', v''⟩ := p
    by_cases hk : k'' = k
    · subst hk
      simp [dSet, dGet, h']
    · simp [dSet, hk, dGet, ih]

theorem dSet_self (d : AList) (k : List Char) (v : Val)
    (h : dGet d k = some v) : dSet d k v = d := by
  induction d with
  | nil => simp [dGet] at h
  | cons p rest ih =>
    obtain ⟨k', v'⟩ := p
    by_cases hk : k' = k
    · subst hk
      simp [dGet] at h
      simp [dSet, h]
    · simp [dGet, hk] at h
      simp [dSet, hk, ih h]

theorem dGet_dDropContent (d : AList) (k : List Char)
    (h : ¬ k = strL ("content")) : dGet (dDropContent d) k = dGet d k := by
  induction d with
  | nil => simp [dDropContent, dGet]
  | cons p rest ih =>
    obtain ⟨k', v'⟩ := p
    by_cases hc : k' = strL ("content")
    · have hne : ¬ k' = k := fun hh => h (hh.symm.trans hc)
      have h' : ¬ strL ("content") = k := fun hh => h hh.symm
      simp [dDropContent, hc, dGet, hne, h', ih]
    · simp [dDropContent, hc, dGet, ih]

theorem kGet_kSet_same (m : KMap) (k : Val) (v : AList) :
    kGet (kSet m k v) k = some v := by
  induction m with
  | nil => simp [kSet, kGet]
  | cons p rest ih =>
    obtain ⟨k', v'⟩ := p
    by_cases h : k' = k
    · simp [kSet, h, kGet]
    · simp [kSet, h, kGet, ih]

theorem kGet_kSet_ne (m : KMap) (k k' : Val) (v : AList) (h : ¬ k' = k) :
    kGet (kSet m k v) k' = kGet m k' := by
  have h' : ¬ k = k' := fun hh => h hh.symm
  induction m with
  | nil => simp [kSet, kGet, h']
  | cons p rest ih =>
    obtain ⟨k'', v''⟩ := p
    by_cases hk : k'' = k
    · subst hk
      simp [kSet, kGet, h']
    · simp [kSet, hk, kGet, ih]

/-! ## C9: missing `url` is non-fatal for the link annotation pass -/

/-- C9: for every record lacking a `url` field, the internal/external
link annotation pass returns the record with every field unchanged (and
in particular adds no `link_type` field); the printed warning has no
record-level effect and nothing is raised. -/
theorem annot_links_no_url (extract : List Char → List Char) (d : AList)
    (h : dHasKey d (strL ("url")) = false) :
    _annotate_internal_external_links extract d = some d := by
  simp [_annotate_internal_external_links, h]

theorem annot_links_no_url_witness :
    dHasKey [(strL ("id"), Val.n 1)] (strL ("url")) = false ∧
      _annotate_internal_external_links (fun _ => []) [(strL ("id"), Val.n 1)]
        = some [(strL ("id"), Val.n 1)] :=
  ⟨by decide, annot_links_no_url (fun _ => []) [(strL ("id"), Val.n 1)] (by decide)⟩

/-! ## C5: internal/external link classification -/

/-- C5: for every record with a `url` field (and its `domains` sequence),
`_annotate_internal_external_links` sets `link_type` to the positionally
aligned sequence in which an entry is `"internal"` exactly when the
`domains` entry is the `"NA"` sentinel or equals the domain extracted
from `url`, and `"external"` otherwise.  (Equal length is immediate from
the `List.map` form.) -/
theorem annot_links_classification (extract : List Char → List Char)
    (d : AList) (url : List Char) (ds : List (List Char))
    (hu : dGet d (strL ("url")) = some (Val.s url))
    (hd : dGet d (strL ("domains")) = some (Val.xs ds)) :
    _annotate_internal_external_links extract d
      = some (dSet d (strL ("link_type")) (Val.xs (ds.map (fun link =>
          if link = strL ("NA") ∨ link = extract url then strL ("internal")
          else strL ("external"))))) := by
  have hk : dHasKey d (strL ("url")) = true := by
    simp [dHasKey, hu]
  have hmap : ds.map (fun link =>
        if link = strL ("NA") then strL ("internal")
        else if link = extract url then strL ("internal")
        else strL ("external"))
      = ds.map (fun link =>
        if link = strL ("NA") ∨ link = extract url then strL ("internal")
        else strL ("external")) := by
    apply List.map_congr_left
    intro link _
    by_cases h1 : link = strL ("NA")
    · simp [h1]
    · by_cases h2 : link = extract url
      · simp [h1, h2]
      · simp [h1, h2]
  simp [_annotate_internal_external_links, hk, hu, hd, hmap]

theorem annot_links_classification_witness :
    _annotate_internal_external_links (fun _ => strL ("ex"))
        [(strL ("url"), Val.s (strL ("u"))),
         (strL ("domains"), Val.xs [strL ("NA"), strL ("ex"), strL ("bbc")])]
      = some (dSet
          [(strL ("url"), Val.s (strL ("u"))),
           (strL ("domains"), Val.xs [strL ("NA"), strL ("ex"), strL ("bbc")])]
          (strL ("link_type"))
          (Val.xs ([strL ("NA"), strL ("ex"), strL ("bbc")].map (fun link =>
            if link = strL ("NA") ∨ link = strL ("ex") then strL ("internal")
            else strL ("external"))))) :=
  annot_links_classification (fun _ => strL ("ex"))
    [(strL ("url"), Val.s (strL ("u"))),
     (strL ("domains"), Val.xs [strL ("NA"), strL ("ex"), strL ("bbc")])]
    (strL ("u")) [strL ("NA"), strL ("ex"), strL ("bbc")]
    (by decide) (by decide)

/-! ## C2: parallel and serial execution agree -/

theorem apply_in_series_eq_parallel (worker : α → Option β) (l : List α) :
    apply_in_series worker l = apply_in_parallel worker l := by
  unfold apply_in_parallel
  induction l with
  | nil => rw [List.mapM_nil]; rfl
  | cons i rest ih => rw [List.mapM_cons, ← ih]; rfl

/-- C2: for every keyed mapping of input records and every fixed
pipeline configuration (transform list, annotation-pass list, flatten
flag, core count), `Transformer.apply` with parallelism enabled equals
`Transformer.apply` with parallelism disabled: the same keyed output
mapping, field for field.  (`Pool.map` is embedded as the
order-preserving traversal of the pure per-record worker, per spec §5.) -/
theorem apply_parallel_eq_serial (transforms : List (Val → Val))
    (passes : List (AList → Option AList)) (fl : Bool) (nc : Nat)
    (inputs : KMap) :
    transformerApply
        { transforms := transforms, annotPasses := passes,
          parallelism := true, flatten := fl, num_cores := nc } inputs
      = transformerApply
        { transforms := transforms, annotPasses := passes,
          parallelism := false, flatten := fl, num_cores := nc } inputs := by
  cases fl <;>
    (simp [transformerApply, _apply_transforms, _apply_annotations,
      apply_in_series_eq_parallel]; rfl)

/-! ## C8: constructor validation of `segment_into` -/

/-- C8: `Transformer` construction fails exactly on a non-None
unrecognized `segment_into`, raising the descriptive `ValueError` naming
the invalid value, and succeeds on `None` and on every recognized mode
regardless of all other constructor arguments (which are never
validated). -/
theorem transformerInit_validation (lsh htp rn fl ah par : Bool)
    (nc : Nat) (seg : Option (List Char)) :
    (∀ s, seg = some s → recognizedMode s = false →
        transformerInit lsh htp seg rn fl ah par nc
          = Except.error (strL ("Invalid segment_type: ") ++ s))
    ∧ (∀ s, seg = some s → recognizedMode s = true →
        ∃ r, transformerInit lsh htp seg rn fl ah par nc = Except.ok r)
    ∧ (seg = none →
        ∃ r, transformerInit lsh htp seg rn fl ah par nc = Except.ok r) := by
  refine ⟨?_, ?_, ?_⟩
  · intro s hs hrec
    subst hs
    by_cases hw : s ∈ wordModes
    · simp [recognizedMode, hw] at hrec
    · by_cases hsent : s ∈ sentModes
      · simp [recognizedMode, hsent] at hrec
      · by_cases hp : s ∈ paraModes
        · simp [recognizedMode, hp] at hrec
        · simp [transformerInit, hw, hsent, hp]
  · intro s hs hrec
    subst hs
    by_cases hw : s ∈ wordModes
    · simp [transformerInit, hw]
    · by_cases hsent : s ∈ sentModes
      · simp [transformerInit, hw, hsent]
      · by_cases hp : s ∈ paraModes
        · simp [transformerInit, hw, hsent, hp]
        · simp [recognizedMode, hw, hsent, hp] at hrec
  · intro hs
    subst hs
    simp [transformerInit]

theorem transformerInit_validation_witness :
    (some (strL ("bogus")) = some (strL ("bogus")) ∧
      recognizedMode (strL ("bogus")) = false ∧
      transformerInit false false (some (strL ("bogus"))) true false false
          false 8
        = Except.error (strL ("Invalid segment_type: ") ++ strL ("bogus")))
    ∧ (recognizedMode (strL ("paragraphs")) = true ∧
      ∃ r, transformerInit false false (some (strL ("paragraphs"))) true false
          false false 8 = Except.ok r)
    ∧ ∃ r, transformerInit false false none true false false false 8
        = Except.ok r :=
  ⟨⟨rfl, by decide,
      (transformerInit_validation false false true false false false 8
        (some (strL ("bogus")))).1 (strL ("bogus")) rfl (by decide)⟩,
    ⟨by decide,
      (transformerInit_validation false false true false false false 8
        (some (strL ("paragraphs")))).2.1 (strL ("paragraphs")) rfl (by decide)⟩,
    (transformerInit_validation false false true false false false 8
      none).2.2 rfl⟩

/-! ## C10: duplicate identifiers — last record wins, silently -/

theorem convert_aux_spec (l : List AList) :
    ∀ (acc out : KMap),
      convert_list_of_dicts_to_dict_of_dicts_aux acc l = some out →
      ∀ k, kGet out k
        = match (l.filter (fun d => decide (get_id d = some k))).getLast? with
          | some d => some d
          | none => kGet acc k := by
  induction l with
  | nil =>
    intro acc out h k
    simp [convert_list_of_dicts_to_dict_of_dicts_aux] at h
    subst h
    simp
  | cons d rest ih =>
    intro acc out h k
    simp only [convert_list_of_dicts_to_dict_of_dicts_aux] at h
    cases hid : get_id d with
    | none => simp [hid] at h
    | some i =>
      rw [hid] at h
      have hrec := ih (kSet acc i d) out h k
      by_cases hk : get_id d = some k
      · have hik : i = k := by
          rw [hid] at hk
          exact Option.some.inj hk
        subst hik
        simp only [List.filter, hk, decide_True]
        cases hfs :
            (rest.filter (fun d' => decide (get_id d' = some i))).getLast? with
        | none =>
          have hnil : rest.filter (fun d' => decide (get_id d' = some i)) = [] :=
            List.getLast?_eq_none_iff.mp hfs
          simp [hrec, hfs, hnil, kGet_kSet_same]
        | some d' =>
          simp [hrec, hfs, List.getLast?_cons]
      · have hik : ¬ i = k := by
          intro hh
          exact hk (hh ▸ hid)
        simp only [List.filter, hk, decide_False]
        rw [hrec, kGet_kSet_ne _ _ _ _ (fun hh => hik hh.symm)]

/-- C10: for every record list, `convert_list_of_dicts_to_dict_of_dicts`
raises no error (whenever every record has an identifier), and its entry
for any identifier is the **last** record with that identifier in list
order — records earlier in the list with a duplicate identifier are
silently dropped. -/
theorem convert_last_wins :
    (∀ (l : List AList) (out : KMap),
      convert_list_of_dicts_to_dict_of_dicts l = some out →
      ∀ k, kGet out k
        = (l.filter (fun d => decide (get_id d = some k))).getLast?)
    ∧ ∀ (l : List AList), (∀ d ∈ l, (get_id d).isSome) →
        (convert_list_of_dicts_to_dict_of_dicts l).isSome := by
  constructor
  · intro l out h k
    have := convert_aux_spec l [] out h k
    rw [this]
    cases (l.filter (fun d => decide (get_id d = some k))).getLast? with
    | none => simp [kGet]
    | some d => simp
  · intro l
    suffices h : ∀ acc, (∀ d ∈ l, (get_id d).isSome) →
        (convert_list_of_dicts_to_dict_of_dicts_aux acc l).isSome by
      intro hl
      exact h [] hl
    induction l with
    | nil => intro acc _; simp [convert_list_of_dicts_to_dict_of_dicts_aux]
    | cons d rest ih =>
      intro acc hl
      have hd := hl d (by simp)
      cases hid : get_id d with
      | none => rw [hid] at hd; simp at hd
      | some i =>
        simp only [convert_list_of_dicts_to_dict_of_dicts_aux, hid]
        exact ih (kSet acc i d) (fun d' hd' => hl d' (by simp [hd']))

theorem convert_last_wins_witness :
    (∀ d ∈ [[(strL ("id"), Val.n 1), (strL ("content"), Val.s (strL ("a")))],
            [(strL ("id"), Val.n 1), (strL ("content"), Val.s (strL ("b")))]],
        (get_id d).isSome)
    ∧ kGet [(Val.n 1,
          [(strL ("id"), Val.n 1), (strL ("content"), Val.s (strL ("b")))])]
        (Val.n 1)
      = some [(strL ("id"), Val.n 1), (strL ("content"), Val.s (strL ("b")))] := by
  constructor
  · decide
  · have := convert_last_wins.1
      [[(strL ("id"), Val.n 1), (strL ("content"), Val.s (strL ("a")))],
       [(strL ("id"), Val.n 1), (strL ("content"), Val.s (strL ("b")))]]
      [(Val.n 1,
        [(strL ("id"), Val.n 1), (strL ("content"), Val.s (strL ("b")))])]
      (by decide) (Val.n 1)
    rw [this]
    decide

/-! ## C6: flattening a segmented record -/

/-- C6: a record whose `content` is a sequence of N segments flattens to
exactly N records — each with `content` one segment, `sub_id` its
zero-based index and every other field copied from the parent — and the
record `{id: 0, content: [a, b, c]}` yields records keyed `"0-0"`,
`"0-1"`, `"0-2"` under the `get_id` rule. -/
theorem flatten_spec :
    (∀ (parent : AList) (segs : List (List Char)),
      dGet parent (strL ("content")) = some (Val.xs segs) →
      ∃ out, _flatten_text_dicts [parent] = some out ∧
        out.length = segs.length ∧
        ∀ j (hj : j < out.length) (hj' : j < segs.length),
          dGet (out.get ⟨j, hj⟩) (strL ("content"))
              = some (Val.s (segs.get ⟨j, hj'⟩)) ∧
          dGet (out.get ⟨j, hj⟩) (strL ("sub_id")) = some (Val.n j) ∧
          ∀ k, ¬ k = strL ("content") → ¬ k = strL ("sub_id") →
            dGet (out.get ⟨j, hj⟩) k = dGet parent k)
    ∧ ∀ a b c : List Char,
        (_flatten_text_dicts
            [[(strL ("id"), Val.n 0), (strL ("content"), Val.xs [a, b, c])]]).map
            (fun l => l.map get_id)
          = some [some (Val.s (strL ("0-0"))), some (Val.s (strL ("0-1"))),
              some (Val.s (strL ("0-2")))] := by
  constructor
  · intro parent segs h
    have hch : flattenChildren parent
        = some (segs.enum.map (fun p =>
            dSet (dSet (dDropContent parent) (strL ("content")) (Val.s p.2))
              (strL ("sub_id")) (Val.n p.1))) := by
      simp [flattenChildren, h]
    have hout : _flatten_text_dicts [parent]
        = some (segs.enum.map (fun p =>
            dSet (dSet (dDropContent parent) (strL ("content")) (Val.s p.2))
              (strL ("sub_id")) (Val.n p.1))) := by
      simp [_flatten_text_dicts, hch]
    refine ⟨_, hout, ?_, ?_⟩
    · simp [List.enum_length]
    · intro j hj hj'
      have hjl : j < segs.enum.length := by
        simpa [List.enum_length] using hj'
      have hget : (segs.enum.map (fun p =>
            dSet (dSet (dDropContent parent) (strL ("content")) (Val.s p.2))
              (strL ("sub_id")) (Val.n p.1))).get ⟨j, hj⟩
          = dSet (dSet (dDropContent parent) (strL ("content"))
              (Val.s (segs.get ⟨j, hj'⟩))) (strL ("sub_id")) (Val.n j) := by
        rw [List.get_eq_getElem, List.getElem_map, List.getElem_enum]
        simp
      rw [hget]
      have hcs : ¬ strL ("content") = strL ("sub_id") := by decide
      refine ⟨?_, ?_, ?_⟩
      · rw [dGet_dSet_ne _ _ _ _ hcs, dGet_dSet_same]
      · rw [dGet_dSet_same]
      · intro k hk1 hk2
        rw [dGet_dSet_ne _ _ _ _ hk2, dGet_dSet_ne _ _ _ _ hk1,
          dGet_dDropContent _ _ hk1]
  · intro a b c
    rfl

theorem flatten_spec_witness :
    ∃ out,
      _flatten_text_dicts
          [[(strL ("id"), Val.n 7),
            (strL ("content"), Val.xs [strL ("s0"), strL ("s1")])]]
        = some out ∧
      out.length = [strL ("s0"), strL ("s1")].length ∧
      ∀ j (hj : j < out.length) (hj' : j < [strL ("s0"), strL ("s1")].length),
        dGet (out.get ⟨j, hj⟩) (strL ("content"))
            = some (Val.s ([strL ("s0"), strL ("s1")].get ⟨j, hj'⟩)) ∧
        dGet (out.get ⟨j, hj⟩) (strL ("sub_id")) = some (Val.n j) ∧
        ∀ k, ¬ k = strL ("content") → ¬ k = strL ("sub_id") →
          dGet (out.get ⟨j, hj⟩) k
            = dGet [(strL ("id"), Val.n 7),
                (strL ("content"), Val.xs [strL ("s0"), strL ("s1")])] k :=
  flatten_spec.1
    [(strL ("id"), Val.n 7), (strL ("content"), Val.xs [strL ("s0"), strL ("s1")])]
    [strL ("s0"), strL ("s1")] (by decide)

/-! ## C7: trailing newline in paragraph segmentation -/

/-- C7 counterexample: `_to_paragraphs` on a string ending in a newline
does **not** retain a trailing empty segment — the condensation step's
`strip()` removes the trailing newline before the split, so
`"text\n"` yields `["text"]`, not `["text", ""]`.  (The raw split alone
would have kept the empty field.) -/
theorem to_paragraphs_counterexample :
    _to_paragraphs (strL ("text\n")) = [strL ("text")]
      ∧ pySplit '\n' (strL ("text\n")) = [strL ("text"), []] := by
  constructor
  · decide
  · decide

theorem takeWhileSp_append_nl (t : List Char) :
    (t ++ ['\n']).takeWhile (· = ' ') = t.takeWhile (· = ' ') := by
  induction t with
  | nil => simp [List.takeWhile]
  | cons r u ih =>
    by_cases hr : r = ' '
    · simp [List.takeWhile, hr, ih]
    · simp [List.takeWhile, hr]

theorem collapseSpacesAux_append_nl :
    ∀ (s : List Char) (n : Nat), n ≤ (s.takeWhile (· = ' ')).length →
      collapseSpacesAux n (s ++ ['\n']) = collapseSpacesAux n s ++ ['\n'] := by
  intro s
  induction s with
  | nil =>
    intro n hn
    simp at hn
    subst hn
    rfl
  | cons c rest ih =>
    intro n hn
    cases n with
    | zero =>
      by_cases hc : c = ' '
      · subst hc
        have e1 : collapseSpacesAux 0 ((' ' :: rest) ++ ['\n'])
            = ' ' :: collapseSpacesAux
                (((rest ++ ['\n']).takeWhile (· = ' ')).length)
                (rest ++ ['\n']) := by
          simp [collapseSpacesAux]
        have e2 : collapseSpacesAux 0 (' ' :: rest)
            = ' ' :: collapseSpacesAux ((rest.takeWhile (· = ' ')).length) rest := by
          simp [collapseSpacesAux]
        rw [e1, e2, takeWhileSp_append_nl, ih _ (Nat.le_refl _)]
        rfl
      · have e1 : collapseSpacesAux 0 ((c :: rest) ++ ['\n'])
            = c :: collapseSpacesAux 0 (rest ++ ['\n']) := by
          simp [collapseSpacesAux, hc]
        have e2 : collapseSpacesAux 0 (c :: rest)
            = c :: collapseSpacesAux 0 rest := by
          simp [collapseSpacesAux, hc]
        rw [e1, e2, ih 0 (Nat.zero_le _)]
        rfl
    | succ m =>
      have hm : m ≤ (rest.takeWhile (· = ' ')).length := by
        by_cases hcc : c = ' '
        · simp [List.takeWhile, hcc] at hn
          exact hn
        · simp [List.takeWhile, hcc] at hn
      have e1 : collapseSpacesAux (m + 1) ((c :: rest) ++ ['\n'])
          = collapseSpacesAux m (rest ++ ['\n']) := by
        simp [collapseSpacesAux]
      have e2 : collapseSpacesAux (m + 1) (c :: rest)
          = collapseSpacesAux m rest := by
        simp [collapseSpacesAux]
      rw [e1, e2, ih m hm]

theorem collapseSpaces_append_nl (s : List Char) :
    collapseSpaces (s ++ ['\n']) = collapseSpaces s ++ ['\n'] :=
  collapseSpacesAux_append_nl s 0 (Nat.zero_le _)

theorem pyStrip_append_nl (s : List Char) :
    pyStrip (s ++ ['\n']) = pyStrip s := by
  unfold pyStrip pyRstrip
  rw [List.reverse_append]
  simp [List.dropWhile, isPyWs]

theorem condense_line_breaks_append_nl (s : List Char) :
    condense_line_breaks (s ++ ['\n']) = condense_line_breaks s := by
  unfold condense_line_breaks
  rw [collapseSpaces_append_nl, pyStrip_append_nl]

/-- C7 (amended): `_to_paragraphs` condenses line breaks first and then
splits on the newline character, but a trailing newline is discarded by
the condensation's `strip()` before the split: appending a newline never
changes the result, so no trailing empty segment arises from it. -/
theorem to_paragraphs_trailing_newline (s : List Char) :
    _to_paragraphs (s ++ ['\n']) = _to_paragraphs s := by
  unfold _to_paragraphs
  rw [condense_line_breaks_append_nl]

/-! ## C3: the plain-text reducer on the header fixture -/

/-- C3 counterexample: `_to_text "<h1>I am a Header</h1>"` is not the
bare string `"I am a Header"` — the h1 replacement rule appends `". \n"`
and normalization leaves a trailing period. -/
theorem to_text_header_counterexample :
    ¬ _to_text (strL ("<h1>I am a Header</h1>")) = strL ("I am a Header") := by
  decide

/-- C3 (amended): the plain-text reducer yields `"I am a Header."` on the
header fixture — all markup removed, with the heading punctuation rule's
period appended (trailing whitespace stripped by line-break
condensation). -/
theorem to_text_header :
    _to_text (strL ("<h1>I am a Header</h1>")) = strL ("I am a Header.") := by
  decide

/-! ## C1 machinery: equation lemmas for the scanners -/

theorem dropWhile_eq_drop (p : Char → Bool) (l : List Char) :
    l.dropWhile p = l.drop (l.takeWhile p).length := by
  induction l with
  | nil => rfl
  | cons c t ih =>
    by_cases h : p c
    · simp [List.dropWhile_cons, List.takeWhile_cons, h, ih]
    · simp [List.dropWhile_cons, List.takeWhile_cons, h]

theorem length_dropWhile_le' (p : Char → Bool) (l : List Char) :
    (l.dropWhile p).length ≤ l.length := by
  rw [dropWhile_eq_drop, List.length_drop]
  exact Nat.sub_le _ _

theorem subQRunAux_skip (q : Char) (cls : Char → Bool) (repl : List Char) :
    ∀ (s : List Char) (n : Nat),
      subQRunAux q cls repl n s = subQRunAux q cls repl 0 (s.drop n) := by
  intro s
  induction s with
  | nil => intro n; cases n <;> rfl
  | cons c rest ih =>
    intro n
    cases n with
    | zero => rfl
    | succ m =>
      show subQRunAux q cls repl m rest = _
      rw [ih m]
      rfl

theorem subQRun_nil (q : Char) (cls : Char → Bool) (repl : List Char) :
    subQRun q cls repl [] = [] := rfl

theorem subQRun_cons_pos {q : Char} {cls : Char → Bool} {repl : List Char}
    {c : Char} {rest : List Char} (h1 : c = q)
    (h2 : 2 ≤ (rest.takeWhile cls).length) :
    subQRun q cls repl (c :: rest)
      = repl ++ subQRun q cls repl (rest.dropWhile cls) := by
  have e : subQRun q cls repl (c :: rest)
      = repl ++ subQRunAux q cls repl (rest.takeWhile cls).length rest := by
    unfold subQRun
    simp [subQRunAux, h1, h2]
  rw [e, subQRunAux_skip, ← dropWhile_eq_drop]
  rfl

theorem subQRun_cons_neg {q : Char} {cls : Char → Bool} {repl : List Char}
    {c : Char} {rest : List Char}
    (h : ¬ (c = q ∧ 2 ≤ (rest.takeWhile cls).length)) :
    subQRun q cls repl (c :: rest) = c :: subQRun q cls repl rest := by
  unfold subQRun
  by_cases h1 : c = q
  · have h2 : ¬ 2 ≤ (rest.takeWhile cls).length := fun hh => h ⟨h1, hh⟩
    simp [subQRunAux, h1, h2]
  · simp [subQRunAux, h1]

theorem collapseSpacesAux_skip :
    ∀ (s : List Char) (n : Nat),
      collapseSpacesAux n s = collapseSpacesAux 0 (s.drop n) := by
  intro s
  induction s with
  | nil => intro n; cases n <;> rfl
  | cons c rest ih =>
    intro n
    cases n with
    | zero => rfl
    | succ m =>
      show collapseSpacesAux m rest = _
      rw [ih m]
      rfl

theorem collapseSpaces_cons_sp (rest : List Char) :
    collapseSpaces (' ' :: rest)
      = ' ' :: collapseSpaces (rest.dropWhile (· = ' ')) := by
  have e : collapseSpaces (' ' :: rest)
      = ' ' :: collapseSpacesAux (rest.takeWhile (· = ' ')).length rest := by
    unfold collapseSpaces
    simp [collapseSpacesAux]
  rw [e, collapseSpacesAux_skip, ← dropWhile_eq_drop]
  rfl

theorem collapseSpaces_cons_ns {c : Char} (h : ¬ c = ' ') (rest : List Char) :
    collapseSpaces (c :: rest) = c :: collapseSpaces rest := by
  unfold collapseSpaces
  simp [collapseSpacesAux, h]

theorem replaceAllAux_skip (p : Char) (ps rep : List Char) :
    ∀ (s : List Char) (n : Nat),
      replaceAllAux p ps rep n s = replaceAllAux p ps rep 0 (s.drop n) := by
  intro s
  induction s with
  | nil => intro n; cases n <;> rfl
  | cons c rest ih =>
    intro n
    cases n with
    | zero => rfl
    | succ m =>
      show replaceAllAux p ps rep m rest = _
      rw [ih m]
      rfl

theorem replaceAll_cons_pos {p : Char} {ps rep : List Char} {c : Char}
    {rest : List Char} (h1 : c = p) (h2 : pfxB ps rest = true) :
    replaceAll (p :: ps) rep (c :: rest)
      = rep ++ replaceAll (p :: ps) rep (rest.drop ps.length) := by
  have e : replaceAll (p :: ps) rep (c :: rest)
      = rep ++ replaceAllAux p ps rep ps.length rest := by
    unfold replaceAll
    simp [replaceAllAux, h1, h2]
  rw [e, replaceAllAux_skip]
  rfl

theorem replaceAll_cons_neg {p : Char} {ps rep : List Char} {c : Char}
    {rest : List Char} (h : ¬ (c = p ∧ pfxB ps rest = true)) :
    replaceAll (p :: ps) rep (c :: rest)
      = c :: replaceAll (p :: ps) rep rest := by
  unfold replaceAll
  by_cases h1 : c = p
  · have h2 : ¬ pfxB ps rest = true := fun hh => h ⟨h1, hh⟩
    simp [replaceAllAux, h1, h2]
  · simp [replaceAllAux, h1]

/-! ## C1 machinery: the no-double-space invariant -/

theorem head?_dropWhile_false (p : Char → Bool) (l : List Char) (a : Char)
    (h : (l.dropWhile p).head? = some a) : p a = false := by
  have hm := List.head?_dropWhile_not p l
  rw [h] at hm
  exact hm

theorem noDS_tail {c : Char} {t : List Char} (h : noDS (c :: t)) : noDS t :=
  h.2

theorem noDS_dropWhile (p : Char → Bool) (s : List Char) (h : noDS s) :
    noDS (s.dropWhile p) := by
  induction s with
  | nil => exact h
  | cons c t ih =>
    rw [List.dropWhile_cons]
    by_cases hp : p c
    · simp [hp]
      exact ih (noDS_tail h)
    · simp [hp]
      exact h

theorem head?_collapseSpaces (u : List Char) :
    (collapseSpaces u).head? = u.head? := by
  cases u with
  | nil => rfl
  | cons c rest =>
    by_cases hc : c = ' '
    · subst hc
      rw [collapseSpaces_cons_sp]
      rfl
    · rw [collapseSpaces_cons_ns hc]
      rfl

theorem noDS_collapseSpaces (s : List Char) : noDS (collapseSpaces s) := by
  suffices h : ∀ (N : Nat) (s : List Char), s.length ≤ N →
      noDS (collapseSpaces s) by
    exact h s.length s (Nat.le_refl _)
  intro N
  induction N with
  | zero =>
    intro s hs
    have : s = [] := List.length_eq_zero.mp (Nat.le_zero.mp hs)
    subst this
    exact trivial
  | succ N ihN =>
    intro s hs
    cases s with
    | nil => exact trivial
    | cons c rest =>
      by_cases hc : c = ' '
      · subst hc
        rw [collapseSpaces_cons_sp]
        refine ⟨fun _ => ?_, ?_⟩
        · rw [head?_collapseSpaces]
          intro hh
          have := head?_dropWhile_false (· = ' ') rest ' ' hh
          simp at this
        · refine ihN _ (Nat.le_trans (length_dropWhile_le' _ _) ?_)
          exact Nat.le_of_succ_le_succ hs
      · rw [collapseSpaces_cons_ns hc]
        refine ⟨fun hh => absurd hh hc, ?_⟩
        exact ihN _ (Nat.le_of_succ_le_succ hs)

theorem collapseSpaces_noop (s : List Char) (h : noDS s) :
    collapseSpaces s = s := by
  induction s with
  | nil => rfl
  | cons c rest ih =>
    by_cases hc : c = ' '
    · subst hc
      rw [collapseSpaces_cons_sp]
      have hd : rest.dropWhile (· = ' ') = rest := by
        cases rest with
        | nil => rfl
        | cons d t =>
          have : ¬ d = ' ' := by
            intro hh
            exact (h.1 rfl) (by rw [hh]; rfl)
          simp [List.dropWhile_cons, this]
      rw [hd, ih (noDS_tail h)]
    · rw [collapseSpaces_cons_ns hc, ih (noDS_tail h)]

/-! ## C1 machinery: `subQRun` head and run lemmas -/

theorem head_not_cls_of_takeWhile_nil {cls : Char → Bool} {t : List Char}
    (h : t.takeWhile cls = []) :
    ∀ a, t.head? = some a → cls a = false := by
  intro a ha
  cases t with
  | nil => simp at ha
  | cons d u =>
    have hd : d = a := by simpa using ha
    subst hd
    by_cases hc : cls d = true
    · rw [List.takeWhile_cons, if_pos hc] at h
      simp at h
    · simpa using hc

theorem takeWhile_subQRun_nil (q : Char) (cls : Char → Bool)
    (rr : List Char) (u : List Char)
    (hu : ∀ a, u.head? = some a → cls a = false) :
    (subQRun q cls (q :: rr) u).takeWhile cls = [] := by
  cases u with
  | nil => rfl
  | cons d t =>
    have hd : cls d = false := hu d rfl
    by_cases hm : d = q ∧ 2 ≤ (t.takeWhile cls).length
    · rw [subQRun_cons_pos hm.1 hm.2]
      have hq : cls q = false := hm.1 ▸ hd
      simp [List.takeWhile_cons, hq]
    · rw [subQRun_cons_neg hm]
      simp [List.takeWhile_cons, hd]

theorem head_subQRun_ne_sp (q : Char) (cls : Char → Bool) (rr : List Char)
    (hq : ¬ q = ' ') (u : List Char) (hu : u.head? ≠ some ' ') :
    (subQRun q cls (q :: rr) u).head? ≠ some ' ' := by
  cases u with
  | nil => simp [subQRun_nil]
  | cons d t =>
    by_cases hm : d = q ∧ 2 ≤ (t.takeWhile cls).length
    · rw [subQRun_cons_pos hm.1 hm.2]
      intro hh
      simp at hh
      exact hq hh
    · rw [subQRun_cons_neg hm]
      exact hu

theorem takeWhile_subQRun_eq (q' : Char) (cls : Char → Bool) (rr : List Char)
    (hq' : cls q' = false) :
    ∀ u, (subQRun q' cls (q' :: rr) u).takeWhile cls = u.takeWhile cls := by
  intro u
  induction u with
  | nil => rfl
  | cons d t ih =>
    by_cases hd : cls d = true
    · have hdq : ¬ d = q' := by
        intro hh
        rw [hh, hq'] at hd
        exact Bool.false_ne_true hd
      have hm : ¬ (d = q' ∧ 2 ≤ (t.takeWhile cls).length) := fun hc => hdq hc.1
      rw [subQRun_cons_neg hm]
      simp [List.takeWhile_cons, hd, ih]
    · have hd' : cls d = false := by simpa using hd
      by_cases hm : d = q' ∧ 2 ≤ (t.takeWhile cls).length
      · rw [subQRun_cons_pos hm.1 hm.2]
        simp [List.takeWhile_cons, hq', hd']
      · rw [subQRun_cons_neg hm]
        simp [List.takeWhile_cons, hd']

theorem takeWhile_subQRun_le_one (q : Char) (cls : Char → Bool)
    (rr : List Char) (u : List Char)
    (hu : (u.takeWhile cls).length ≤ 1) :
    ((subQRun q cls (q :: rr) u).takeWhile cls).length ≤ 1 := by
  cases u with
  | nil => simp [subQRun_nil]
  | cons d t =>
    by_cases hd : cls d = true
    · have ht : t.takeWhile cls = [] := by
        rw [List.takeWhile_cons, if_pos hd, List.length_cons] at hu
        exact List.length_eq_zero.mp
          (Nat.le_zero.mp (Nat.le_of_succ_le_succ hu))
      have hm : ¬ (d = q ∧ 2 ≤ (t.takeWhile cls).length) := by
        intro hc
        rw [ht] at hc
        simp at hc
      rw [subQRun_cons_neg hm]
      rw [List.takeWhile_cons, if_pos hd,
        takeWhile_subQRun_nil q cls rr t (head_not_cls_of_takeWhile_nil ht)]
      simp
    · have hd' : cls d = false := by simpa using hd
      by_cases hm : d = q ∧ 2 ≤ (t.takeWhile cls).length
      · rw [subQRun_cons_pos hm.1 hm.2]
        have hq : cls q = false := hm.1 ▸ hd'
        simp [List.takeWhile_cons, hq]
      · rw [subQRun_cons_neg hm]
        simp [List.takeWhile_cons, hd']

/-! ## C1 machinery: establishment, preservation and no-op lemmas -/

theorem okAfter_dropWhile (q : Char) (p : Char → Bool) (s : List Char)
    (h : okAfter q s) : okAfter q (s.dropWhile p) := by
  induction s with
  | nil => exact h
  | cons c t ih =>
    rw [List.dropWhile_cons]
    by_cases hp : p c
    · simp only [hp, if_true]
      exact ih h.2
    · simp only [hp, if_false]
      exact h

theorem clsA_le_clsB : ∀ c, clsA c = true → clsB c = true := by
  intro c hc
  simp [clsA] at hc
  rcases hc with h | h <;> simp [clsB, h]

theorem takeWhile_length_mono (p r : Char → Bool)
    (hpr : ∀ c, p c = true → r c = true) :
    ∀ l : List Char, (l.takeWhile p).length ≤ (l.takeWhile r).length := by
  intro l
  induction l with
  | nil => exact Nat.le_refl _
  | cons c t ih =>
    by_cases hp : p c = true
    · have hr := hpr c hp
      simp only [List.takeWhile_cons, hp, hr, if_true, List.length_cons]
      exact Nat.succ_le_succ ih
    · simp only [List.takeWhile_cons, hp, if_false]
      exact Nat.zero_le _

/-- Establishment: after the `[q][. \n]{2,}` pass, every occurrence of
`q` is followed by a `runOK` tail. -/
theorem okAfter_subQRun_self (q : Char) (hq1 : ¬ q = ' ') (hq2 : ¬ q = '\n') :
    ∀ s : List Char, okAfter q (subQRun q clsB [q, ' ', '\n'] s) := by
  suffices hN : ∀ (N : Nat) (s : List Char), s.length ≤ N →
      okAfter q (subQRun q clsB [q, ' ', '\n'] s) by
    intro s
    exact hN s.length s (Nat.le_refl _)
  intro N
  induction N with
  | zero =>
    intro s hs
    have : s = [] := List.length_eq_zero.mp (Nat.le_zero.mp hs)
    subst this
    exact trivial
  | succ N ihN =>
    intro s hs
    cases s with
    | nil => exact trivial
    | cons c rest =>
      by_cases hm : c = q ∧ 2 ≤ (rest.takeWhile clsB).length
      · rw [subQRun_cons_pos hm.1 hm.2]
        have hX : ((subQRun q clsB [q, ' ', '\n']
              (rest.dropWhile clsB)).takeWhile clsB) = [] := by
          refine takeWhile_subQRun_nil q clsB [' ', '\n'] _ ?_
          intro a ha
          exact head?_dropWhile_false clsB rest a ha
        refine ⟨fun _ => ?_, fun hsp => absurd hsp.symm hq1,
          fun hnl => absurd hnl.symm hq2, ?_⟩
        · right
          show List.takeWhile clsB (' ' :: '\n' ::
              subQRun q clsB [q, ' ', '\n'] (List.dropWhile clsB rest))
            = [' ', '\n']
          rw [List.takeWhile_cons, if_pos (by decide : clsB ' ' = true),
            List.takeWhile_cons, if_pos (by decide : clsB '\n' = true), hX]
        · refine ihN _ (Nat.le_trans (length_dropWhile_le' _ _) ?_)
          exact Nat.le_of_succ_le_succ hs
      · rw [subQRun_cons_neg hm]
        refine ⟨fun hc => ?_, ihN rest (Nat.le_of_succ_le_succ hs)⟩
        have hlen : (rest.takeWhile clsB).length ≤ 1 := by
          have : ¬ 2 ≤ (rest.takeWhile clsB).length := fun hh => hm ⟨hc, hh⟩
          omega
        left
        exact takeWhile_subQRun_le_one q clsB [' ', '\n'] rest hlen

/-- Preservation: the `[q'][. \n]{2,}` pass for a different,
out-of-class `q'` preserves `okAfter q`. -/
theorem okAfter_subQRun_other (q q' : Char) (hne : ¬ q' = q)
    (hq' : clsB q' = false) (hq1 : ¬ q = ' ') (hq2 : ¬ q = '\n') :
    ∀ s : List Char, okAfter q s →
      okAfter q (subQRun q' clsB [q', ' ', '\n'] s) := by
  suffices hN : ∀ (N : Nat) (s : List Char), s.length ≤ N → okAfter q s →
      okAfter q (subQRun q' clsB [q', ' ', '\n'] s) by
    intro s
    exact hN s.length s (Nat.le_refl _)
  intro N
  induction N with
  | zero =>
    intro s hs _
    have : s = [] := List.length_eq_zero.mp (Nat.le_zero.mp hs)
    subst this
    exact trivial
  | succ N ihN =>
    intro s hs h
    cases s with
    | nil => exact trivial
    | cons c rest =>
      by_cases hm : c = q' ∧ 2 ≤ (rest.takeWhile clsB).length
      · rw [subQRun_cons_pos hm.1 hm.2]
        refine ⟨fun hh => absurd hh hne, fun hsp => absurd hsp.symm hq1,
          fun hnl => absurd hnl.symm hq2, ?_⟩
        refine ihN _ (Nat.le_trans (length_dropWhile_le' _ _)
          (Nat.le_of_succ_le_succ hs)) ?_
        exact okAfter_dropWhile q clsB rest h.2
      · rw [subQRun_cons_neg hm]
        refine ⟨fun hc => ?_, ihN rest (Nat.le_of_succ_le_succ hs) h.2⟩
        have hr := h.1 hc
        unfold runOK at hr ⊢
        rw [takeWhile_subQRun_eq q' clsB [' ', '\n'] hq' rest]
        exact hr

/-- The `[q][. ]{2,}` passes are the identity on a string satisfying the
`okAfter q` invariant (their runs are always too short). -/
theorem subQRun_noop_clsA (q : Char) (repl : List Char) :
    ∀ s : List Char, okAfter q s → subQRun q clsA repl s = s := by
  suffices hN : ∀ (N : Nat) (s : List Char), s.length ≤ N → okAfter q s →
      subQRun q clsA repl s = s by
    intro s
    exact hN s.length s (Nat.le_refl _)
  intro N
  induction N with
  | zero =>
    intro s hs _
    have : s = [] := List.length_eq_zero.mp (Nat.le_zero.mp hs)
    subst this
    rfl
  | succ N ihN =>
    intro s hs h
    cases s with
    | nil => rfl
    | cons c rest =>
      by_cases hm : c = q ∧ 2 ≤ (rest.takeWhile clsA).length
      · exfalso
        rcases h.1 hm.1 with hlen | htw
        · have hmono := takeWhile_length_mono clsA clsB clsA_le_clsB rest
          omega
        · have hsplit : rest = ' ' :: '\n' :: rest.dropWhile clsB := by
            conv_lhs => rw [← List.takeWhile_append_dropWhile clsB rest]
            rw [htw]
            rfl
          have h2 := hm.2
          rw [hsplit] at h2
          rw [List.takeWhile_cons, if_pos (by decide : clsA ' ' = true),
            List.takeWhile_cons,
            if_neg (by decide : ¬ clsA '\n' = true)] at h2
          simp at h2
      · rw [subQRun_cons_neg hm, ihN rest (Nat.le_of_succ_le_succ hs) h.2]

/-- The `[q][. \n]{2,}` pass is the identity on a string satisfying the
`okAfter q` invariant (every residual match rewrites to itself). -/
theorem subQRun_noop_clsB (q : Char) :
    ∀ s : List Char, okAfter q s → subQRun q clsB [q, ' ', '\n'] s = s := by
  suffices hN : ∀ (N : Nat) (s : List Char), s.length ≤ N → okAfter q s →
      subQRun q clsB [q, ' ', '\n'] s = s by
    intro s
    exact hN s.length s (Nat.le_refl _)
  intro N
  induction N with
  | zero =>
    intro s hs _
    have : s = [] := List.length_eq_zero.mp (Nat.le_zero.mp hs)
    subst this
    rfl
  | succ N ihN =>
    intro s hs h
    cases s with
    | nil => rfl
    | cons c rest =>
      by_cases hm : c = q ∧ 2 ≤ (rest.takeWhile clsB).length
      · rcases h.1 hm.1 with hlen | htw
        · exfalso
          have h2 := hm.2
          omega
        · have hsplit : rest = ' ' :: '\n' :: rest.dropWhile clsB := by
            conv_lhs => rw [← List.takeWhile_append_dropWhile clsB rest]
            rw [htw]
            rfl
          rw [subQRun_cons_pos hm.1 hm.2, hm.1]
          have hih : subQRun q clsB [q, ' ', '\n'] (rest.dropWhile clsB)
              = rest.dropWhile clsB := by
            refine ihN _ (Nat.le_trans (length_dropWhile_le' _ _)
              (Nat.le_of_succ_le_succ hs)) ?_
            exact okAfter_dropWhile q clsB rest h.2
          rw [hih]
          conv_rhs => rw [hsplit]
          rfl
      · rw [subQRun_cons_neg hm, ihN rest (Nat.le_of_succ_le_succ hs) h.2]

/-- The `[q'][cls]{2,}` passes preserve the no-double-space invariant. -/
theorem noDS_subQRun (q' : Char) (cls : Char → Bool) (rr : List Char)
    (hsp : ¬ q' = ' ') (hcls : cls ' ' = true)
    (hrr : rr = [' '] ∨ rr = [' ', '\n']) :
    ∀ s : List Char, noDS s → noDS (subQRun q' cls (q' :: rr) s) := by
  suffices hN : ∀ (N : Nat) (s : List Char), s.length ≤ N → noDS s →
      noDS (subQRun q' cls (q' :: rr) s) by
    intro s
    exact hN s.length s (Nat.le_refl _)
  intro N
  induction N with
  | zero =>
    intro s hs _
    have : s = [] := List.length_eq_zero.mp (Nat.le_zero.mp hs)
    subst this
    exact trivial
  | succ N ihN =>
    intro s hs h
    cases s with
    | nil => exact trivial
    | cons c rest =>
      by_cases hm : c = q' ∧ 2 ≤ (rest.takeWhile cls).length
      · rw [subQRun_cons_pos hm.1 hm.2]
        have hXh : (subQRun q' cls (q' :: rr)
            (rest.dropWhile cls)).head? ≠ some ' ' := by
          refine head_subQRun_ne_sp q' cls rr hsp _ ?_
          intro hh
          have := head?_dropWhile_false cls rest ' ' hh
          rw [this] at hcls
          exact Bool.false_ne_true hcls
        have hXds : noDS (subQRun q' cls (q' :: rr) (rest.dropWhile cls)) := by
          refine ihN _ (Nat.le_trans (length_dropWhile_le' _ _)
            (Nat.le_of_succ_le_succ hs)) ?_
          exact noDS_dropWhile cls rest h.2
        rcases hrr with hrr1 | hrr2
        · subst hrr1
          exact ⟨fun hq => absurd hq hsp, fun _ => hXh, hXds⟩
        · subst hrr2
          refine ⟨fun hq => absurd hq hsp, fun _ hh => ?_,
            fun hnl => absurd hnl (by decide), hXds⟩
          simp at hh
      · rw [subQRun_cons_neg hm]
        refine ⟨fun hc => ?_, ihN rest (Nat.le_of_succ_le_succ hs) h.2⟩
        exact head_subQRun_ne_sp q' cls rr hsp rest (h.1 hc)

/-! ## C1 machinery: no-op lemmas for the remaining steps -/

theorem replaceAll_noop (p : Char) (ps rep : List Char) :
    ∀ s, subB (p :: ps) s = false → replaceAll (p :: ps) rep s = s := by
  intro s
  induction s with
  | nil => intro _; rfl
  | cons c rest ih =>
    intro h
    have hsplit : pfxB (p :: ps) (c :: rest) = false
        ∧ subB (p :: ps) rest = false := by
      unfold subB at h
      constructor
      · cases hp : pfxB (p :: ps) (c :: rest)
        · rfl
        · rw [hp] at h; simp at h
      · cases hsb : subB (p :: ps) rest
        · rfl
        · rw [hsb] at h; simp at h
    have hneg : ¬ (c = p ∧ pfxB ps rest = true) := by
      intro hc
      have : pfxB (p :: ps) (c :: rest) = true := by
        unfold pfxB
        simp [hc.1, hc.2]
      rw [this] at hsplit
      exact Bool.noConfusion hsplit.1
    rw [replaceAll_cons_neg hneg, ih hsplit.2]

theorem pyLstrip_noop (s : List Char)
    (h : ∀ a, s.head? = some a → isPyWs a = false) : pyLstrip s = s := by
  unfold pyLstrip
  cases s with
  | nil => rfl
  | cons c rest =>
    have := h c rfl
    simp [List.dropWhile_cons, this]

theorem removeLeadingDot_noop (t : List Char) (h : t.head? ≠ some '.') :
    removeLeadingDot t = t := by
  unfold removeLeadingDot
  rw [if_neg h]

theorem replaceOnce_dot (r : List Char) :
    replaceOnce ['.'] [] ('.' :: r) = r := by
  simp [replaceOnce, pfxB]

theorem noDS_removeLeadingDot (t : List Char) (h : noDS t) :
    noDS (removeLeadingDot t) := by
  unfold removeLeadingDot
  by_cases hd : t.head? = some '.'
  · rw [if_pos hd]
    cases t with
    | nil => simp at hd
    | cons c r =>
      have hc : c = '.' := by simpa using hd
      subst hc
      rw [replaceOnce_dot]
      exact noDS_dropWhile _ _ h.2
  · rw [if_neg hd]
    exact h

theorem okAfter_removeLeadingDot (q : Char) (t : List Char)
    (h : okAfter q t) : okAfter q (removeLeadingDot t) := by
  unfold removeLeadingDot
  by_cases hd : t.head? = some '.'
  · rw [if_pos hd]
    cases t with
    | nil => simp at hd
    | cons c r =>
      have hc : c = '.' := by simpa using hd
      subst hc
      rw [replaceOnce_dot]
      exact okAfter_dropWhile q _ r h.2
  · rw [if_neg hd]
    exact h

theorem head_removeLeadingDot_lstrip (z : List Char) :
    ∀ a, (removeLeadingDot (pyLstrip z)).head? = some a → isPyWs a = false := by
  unfold removeLeadingDot
  by_cases hd : (pyLstrip z).head? = some '.'
  · rw [if_pos hd]
    intro a ha
    unfold pyLstrip at ha
    exact head?_dropWhile_false _ _ _ ha
  · rw [if_neg hd]
    intro a ha
    unfold pyLstrip at ha
    exact head?_dropWhile_false _ _ _ ha

/-! ## C1: invariants of the normalizer's output, fixpoint, and the
idempotence verdict -/

/-- Structural invariants of every `regex_out_punctuation_and_white_space`
output: no double spaces; every `.`, `?`, `!` is followed by at most one
`[. \n]` character or exactly `" \n"`; the head is not whitespace. -/
theorem regexOut_invariants (x : List Char) :
    noDS (regex_out_punctuation_and_white_space x)
    ∧ okAfter '.' (regex_out_punctuation_and_white_space x)
    ∧ okAfter '?' (regex_out_punctuation_and_white_space x)
    ∧ okAfter '!' (regex_out_punctuation_and_white_space x)
    ∧ ∀ a, (regex_out_punctuation_and_white_space x).head? = some a →
        isPyWs a = false := by
  unfold regex_out_punctuation_and_white_space
  set t1 := collapseSpaces (replaceAll ['?', '.'] ['?'] x) with ht1
  set t2 := subQRun '.' clsA ['.', ' '] t1 with ht2
  set t3 := subQRun '?' clsA ['?', ' '] t2 with ht3
  set t4 := subQRun '!' clsA ['!', ' '] t3 with ht4
  set t5 := subQRun '.' clsB ['.', ' ', '\n'] t4 with ht5
  set t6 := subQRun '?' clsB ['?', ' ', '\n'] t5 with ht6
  set t7 := subQRun '!' clsB ['!', ' ', '\n'] t6 with ht7
  have hds1 : noDS t1 := noDS_collapseSpaces _
  have hds2 : noDS t2 :=
    noDS_subQRun '.' clsA [' '] (by decide) (by decide) (Or.inl rfl) t1 hds1
  have hds3 : noDS t3 :=
    noDS_subQRun '?' clsA [' '] (by decide) (by decide) (Or.inl rfl) t2 hds2
  have hds4 : noDS t4 :=
    noDS_subQRun '!' clsA [' '] (by decide) (by decide) (Or.inl rfl) t3 hds3
  have hds5 : noDS t5 :=
    noDS_subQRun '.' clsB [' ', '\n'] (by decide) (by decide) (Or.inr rfl)
      t4 hds4
  have hds6 : noDS t6 :=
    noDS_subQRun '?' clsB [' ', '\n'] (by decide) (by decide) (Or.inr rfl)
      t5 hds5
  have hds7 : noDS t7 :=
    noDS_subQRun '!' clsB [' ', '\n'] (by decide) (by decide) (Or.inr rfl)
      t6 hds6
  have hok5 : okAfter '.' t5 :=
    okAfter_subQRun_self '.' (by decide) (by decide) t4
  have hok6d : okAfter '.' t6 :=
    okAfter_subQRun_other '.' '?' (by decide) (by decide) (by decide)
      (by decide) t5 hok5
  have hok6q : okAfter '?' t6 :=
    okAfter_subQRun_self '?' (by decide) (by decide) t5
  have hok7d : okAfter '.' t7 :=
    okAfter_subQRun_other '.' '!' (by decide) (by decide) (by decide)
      (by decide) t6 hok6d
  have hok7q : okAfter '?' t7 :=
    okAfter_subQRun_other '?' '!' (by decide) (by decide) (by decide)
      (by decide) t6 hok6q
  have hok7b : okAfter '!' t7 :=
    okAfter_subQRun_self '!' (by decide) (by decide) t6
  have hlds : noDS (pyLstrip t7) := noDS_dropWhile _ _ hds7
  have hlokd : okAfter '.' (pyLstrip t7) := okAfter_dropWhile _ _ _ hok7d
  have hlokq : okAfter '?' (pyLstrip t7) := okAfter_dropWhile _ _ _ hok7q
  have hlokb : okAfter '!' (pyLstrip t7) := okAfter_dropWhile _ _ _ hok7b
  exact ⟨noDS_removeLeadingDot _ hlds, okAfter_removeLeadingDot _ _ hlokd,
    okAfter_removeLeadingDot _ _ hlokq, okAfter_removeLeadingDot _ _ hlokb,
    head_removeLeadingDot_lstrip t7⟩

/-- A string satisfying the output invariants, not containing `"?."` and
not starting with `'.'`, is a fixpoint of the normalizer. -/
theorem regexOut_fixpoint (y : List Char)
    (hds : noDS y) (hok1 : okAfter '.' y) (hok2 : okAfter '?' y)
    (hok3 : okAfter '!' y)
    (hws : ∀ a, y.head? = some a → isPyWs a = false)
    (hqd : subB ['?', '.'] y = false)
    (hdot : y.head? ≠ some '.') :
    regex_out_punctuation_and_white_space y = y := by
  show removeLeadingDot (pyLstrip
      (subQRun '!' clsB ['!', ' ', '\n']
        (subQRun '?' clsB ['?', ' ', '\n']
          (subQRun '.' clsB ['.', ' ', '\n']
            (subQRun '!' clsA ['!', ' ']
              (subQRun '?' clsA ['?', ' ']
                (subQRun '.' clsA ['.', ' ']
                  (collapseSpaces (replaceAll ['?', '.'] ['?'] y)))))))))
    = y
  rw [replaceAll_noop '?' ['.'] ['?'] y hqd]
  rw [collapseSpaces_noop y hds]
  rw [subQRun_noop_clsA '.' ['.', ' '] y hok1]
  rw [subQRun_noop_clsA '?' ['?', ' '] y hok2]
  rw [subQRun_noop_clsA '!' ['!', ' '] y hok3]
  rw [subQRun_noop_clsB '.' y hok1]
  rw [subQRun_noop_clsB '?' y hok2]
  rw [subQRun_noop_clsB '!' y hok3]
  rw [pyLstrip_noop y hws]
  exact removeLeadingDot_noop y hdot

/-- C1 counterexample: the normalizer is **not** idempotent on all
HTML-free strings.  On `"..a"` (no `'<'`, so no raw HTML tags) the first
pass removes only one leading period, leaving `".a"`, and a second pass
removes the next one: `normalizer(normalizer("..a")) = "a" ≠ ".a" =
normalizer("..a")`. -/
theorem regexOut_not_idempotent :
    (¬ '<' ∈ strL ("..a"))
    ∧ ¬ regex_out_punctuation_and_white_space
          (regex_out_punctuation_and_white_space (strL ("..a")))
        = regex_out_punctuation_and_white_space (strL ("..a")) := by
  constructor
  · decide
  · decide

/-- C1 (amended): the normalizer is idempotent on every string whose
normalized form contains no `"?."` substring and does not begin with a
period.  (The two failure sources are exactly the single-pass
`'?.'→'?'` replacement, which can leave a new `"?."` behind, and the
removal of only one leading period.) -/
theorem regexOut_idempotent (x : List Char)
    (h1 : subB ['?', '.'] (regex_out_punctuation_and_white_space x) = false)
    (h2 : (regex_out_punctuation_and_white_space x).head? ≠ some '.') :
    regex_out_punctuation_and_white_space
        (regex_out_punctuation_and_white_space x)
      = regex_out_punctuation_and_white_space x := by
  obtain ⟨hds, hokd, hokq, hokb, hws⟩ := regexOut_invariants x
  exact regexOut_fixpoint _ hds hokd hokq hokb hws h1 h2

/-! ## C4 machinery: substring lemmas for marker replacement -/

theorem pfxB_correct : ∀ (a b : List Char), pfxB a b = true ↔ a <+: b := by
  intro a
  induction a with
  | nil =>
    intro b
    simp [pfxB]
  | cons x xs ih =>
    intro b
    cases b with
    | nil =>
      show false = true ↔ _
      rw [List.prefix_nil]
      simp
    | cons y ys =>
      rw [List.cons_prefix_cons]
      show (decide (x = y) && pfxB xs ys) = true ↔ _
      rw [Bool.and_eq_true, decide_eq_true_eq, ih]

theorem subB_iff_infix : ∀ (Y z : List Char), subB Y z = true ↔ Y <:+: z := by
  intro Y z
  induction z with
  | nil =>
    show pfxB Y [] = true ↔ _
    rw [pfxB_correct, List.infix_nil, List.prefix_nil]
  | cons c t ih =>
    show (pfxB Y (c :: t) || subB Y t) = true ↔ _
    rw [Bool.or_eq_true, pfxB_correct, ih, List.infix_cons_iff]

theorem subB_reverse (Y z : List Char) :
    subB Y z.reverse = subB Y.reverse z := by
  have hiff : (Y <:+: z.reverse) ↔ (Y.reverse <:+: z) := by
    constructor
    · intro h
      have h2 := List.reverse_infix.mpr h
      rwa [List.reverse_reverse] at h2
    · intro h
      have h2 := List.reverse_infix.mpr h
      rwa [List.reverse_reverse] at h2
  rw [Bool.eq_iff_iff, subB_iff_infix, subB_iff_infix]
  exact hiff

theorem subB_of_pfxB (Y s : List Char) (h : pfxB Y s = true) :
    subB Y s = true := by
  cases s with
  | nil => exact h
  | cons c t =>
    show (pfxB Y (c :: t) || subB Y t) = true
    rw [h]
    rfl

theorem subB_cons_of (Y : List Char) (c : Char) (t : List Char)
    (h : subB Y t = true) : subB Y (c :: t) = true := by
  show (pfxB Y (c :: t) || subB Y t) = true
  rw [h]
  simp

theorem subB_drop (Y : List Char) :
    ∀ (l : List Char) (n : Nat), subB Y (l.drop n) = true →
      subB Y l = true := by
  intro l
  induction l with
  | nil =>
    intro n h
    simpa using h
  | cons c t ih =>
    intro n h
    cases n with
    | zero => exact h
    | succ m => exact subB_cons_of Y c t (ih m h)

theorem pfxB_append_or : ∀ (X Y u : List Char),
    pfxB Y (X ++ u) = true → pfxB Y X = true ∨ pfxB X Y = true := by
  intro X
  induction X with
  | nil =>
    intro Y u _
    right
    rfl
  | cons x xs ih =>
    intro Y u h
    cases Y with
    | nil => left; rfl
    | cons y ys =>
      have h' : y = x ∧ pfxB ys (xs ++ u) = true := by
        have h2 : (decide (y = x) && pfxB ys (xs ++ u)) = true := h
        rw [Bool.and_eq_true, decide_eq_true_eq] at h2
        exact h2
      rcases ih ys u h'.2 with hl | hr
      · left
        show (decide (y = x) && pfxB ys xs) = true
        rw [Bool.and_eq_true, decide_eq_true_eq]
        exact ⟨h'.1, hl⟩
      · right
        show (decide (x = y) && pfxB xs ys) = true
        rw [Bool.and_eq_true, decide_eq_true_eq]
        exact ⟨h'.1.symm, hr⟩

theorem take_of_pfxB : ∀ (Y c : List Char), pfxB Y c = true →
    c.take Y.length = Y := by
  intro Y
  induction Y with
  | nil =>
    intro c _
    rfl
  | cons y ys ih =>
    intro c h
    cases c with
    | nil => exact absurd h (by simp [pfxB])
    | cons d t =>
      have h' : y = d ∧ pfxB ys t = true := by
        have h2 : (decide (y = d) && pfxB ys t) = true := h
        rw [Bool.and_eq_true, decide_eq_true_eq] at h2
        exact h2
      rw [List.length_cons, List.take_succ_cons, ih t h'.2, h'.1]

theorem append_of_pfxB (Y c : List Char) (h : pfxB Y c = true) :
    c = Y ++ c.drop Y.length := by
  conv_lhs => rw [← List.take_append_drop Y.length c]
  rw [take_of_pfxB Y c h]

theorem pfxB_self_append : ∀ (Y w : List Char), pfxB Y (Y ++ w) = true := by
  intro Y w
  induction Y with
  | nil => rfl
  | cons y ys ih =>
    show (decide (y = y) && pfxB ys (ys ++ w)) = true
    rw [Bool.and_eq_true, decide_eq_true_eq]
    exact ⟨rfl, ih⟩

/-- No creation (prefix form): a space-free `Y` is a prefix of the
replaced string only if it already was one. -/
theorem pfxB_replaceAll_imp (p : Char) (ps : List Char) :
    ∀ (c Y : List Char), (∀ ch ∈ Y, ¬ ch = ' ') →
      pfxB Y (replaceAll (p :: ps) [' '] c) = true → pfxB Y c = true := by
  intro c
  induction c with
  | nil =>
    intro Y _ h
    exact h
  | cons ch rest ih =>
    intro Y hY h
    by_cases hm : ch = p ∧ pfxB ps rest = true
    · rw [replaceAll_cons_pos hm.1 hm.2] at h
      cases Y with
      | nil => rfl
      | cons y ys =>
        exfalso
        have h2 : (decide (y = ' ')
            && pfxB ys (replaceAll (p :: ps) [' ']
              (rest.drop ps.length))) = true := h
        rw [Bool.and_eq_true, decide_eq_true_eq] at h2
        exact hY y (by simp) h2.1
    · rw [replaceAll_cons_neg hm] at h
      cases Y with
      | nil => rfl
      | cons y ys =>
        have h2 : (decide (y = ch)
            && pfxB ys (replaceAll (p :: ps) [' '] rest)) = true := h
        rw [Bool.and_eq_true, decide_eq_true_eq] at h2
        have hys : pfxB ys rest = true :=
          ih ys (fun ch' hch' => hY ch' (by simp [hch'])) h2.2
        show (decide (y = ch) && pfxB ys rest) = true
        rw [Bool.and_eq_true, decide_eq_true_eq]
        exact ⟨h2.1, hys⟩

/-- No creation (substring form): a space-free `Y` occurs in the
replaced string only if it occurs (somewhere) in the original. -/
theorem subB_replaceAll_imp (p : Char) (ps Y : List Char)
    (hY : ∀ ch ∈ Y, ¬ ch = ' ') :
    ∀ c, subB Y (replaceAll (p :: ps) [' '] c) = true →
      subB Y c = true := by
  suffices hN : ∀ (N : Nat) (c : List Char), c.length ≤ N →
      subB Y (replaceAll (p :: ps) [' '] c) = true → subB Y c = true by
    intro c
    exact hN c.length c (Nat.le_refl _)
  intro N
  induction N with
  | zero =>
    intro c hc h
    have : c = [] := List.length_eq_zero.mp (Nat.le_zero.mp hc)
    subst this
    exact h
  | succ N ihN =>
    intro c hc h
    cases c with
    | nil => exact h
    | cons ch rest =>
      by_cases hm : ch = p ∧ pfxB ps rest = true
      · rw [replaceAll_cons_pos hm.1 hm.2] at h
        have h' : (pfxB Y
            (' ' :: replaceAll (p :: ps) [' '] (rest.drop ps.length))
            || subB Y (replaceAll (p :: ps) [' '] (rest.drop ps.length)))
            = true := h
        rcases (Bool.or_eq_true _ _).mp h' with hp | hs
        · cases Y with
          | nil => exact subB_of_pfxB [] _ rfl
          | cons y ys =>
            exfalso
            have h2 : (decide (y = ' ')
                && pfxB ys (replaceAll (p :: ps) [' ']
                  (rest.drop ps.length))) = true := hp
            rw [Bool.and_eq_true, decide_eq_true_eq] at h2
            exact hY y (by simp) h2.1
        · have hlen : (rest.drop ps.length).length ≤ N := by
            have := List.length_drop ps.length rest
            have hr : rest.length ≤ N := Nat.le_of_succ_le_succ hc
            omega
          have := ihN (rest.drop ps.length) hlen hs
          exact subB_cons_of Y ch rest (subB_drop Y rest ps.length this)
      · rw [replaceAll_cons_neg hm] at h
        have h' : (pfxB Y (ch :: replaceAll (p :: ps) [' '] rest)
            || subB Y (replaceAll (p :: ps) [' '] rest)) = true := h
        rcases (Bool.or_eq_true _ _).mp h' with hp | hs
        · have hpfull : pfxB Y (replaceAll (p :: ps) [' '] (ch :: rest))
              = true := by
            rw [replaceAll_cons_neg hm]
            exact hp
          exact subB_of_pfxB Y _
            (pfxB_replaceAll_imp p ps (ch :: rest) Y hY hpfull)
        · exact subB_cons_of Y ch rest
            (ihN rest (Nat.le_of_succ_le_succ hc) hs)

/-- Append elimination: when no occurrence of `Y` can start inside or
across `X`, an occurrence of `Y` in `X ++ u` is an occurrence in `u`. -/
theorem subB_append_elim (Y : List Char) :
    ∀ (X u : List Char),
      (∀ pp, pp < X.length →
        pfxB Y (X.drop pp) = false ∧ pfxB (X.drop pp) Y = false) →
      subB Y (X ++ u) = true → subB Y u = true := by
  intro X
  induction X with
  | nil =>
    intro u _ h
    exact h
  | cons x xs ih =>
    intro u hH h
    have h' : (pfxB Y (x :: (xs ++ u)) || subB Y (xs ++ u)) = true := h
    rcases (Bool.or_eq_true _ _).mp h' with hp | hs
    · exfalso
      have hp' : pfxB Y ((x :: xs) ++ u) = true := hp
      rcases pfxB_append_or (x :: xs) Y u hp' with h1 | h2
      · have := (hH 0 (Nat.succ_pos _)).1
        rw [List.drop_zero] at this
        rw [this] at h1
        exact Bool.noConfusion h1
      · have := (hH 0 (Nat.succ_pos _)).2
        rw [List.drop_zero] at this
        rw [this] at h2
        exact Bool.noConfusion h2
    · refine ih u (fun pp hpp => ?_) hs
      have := hH (pp + 1) (Nat.succ_lt_succ hpp)
      simpa using this

/-- The replacement scan is locally inert on a window free of pattern
matches. -/
theorem replaceAll_window (p : Char) (ps : List Char) :
    ∀ (k : Nat) (c : List Char),
      (∀ q, q < k → pfxB (p :: ps) (c.drop q) = false) →
      replaceAll (p :: ps) [' '] c
        = c.take k ++ replaceAll (p :: ps) [' '] (c.drop k) := by
  intro k
  induction k with
  | zero =>
    intro c _
    rfl
  | succ k ihk =>
    intro c hwin
    cases c with
    | nil => rfl
    | cons ch rest =>
      have h0 : pfxB (p :: ps) (ch :: rest) = false := by
        have := hwin 0 (Nat.succ_pos _)
        simpa using this
      have hm : ¬ (ch = p ∧ pfxB ps rest = true) := by
        intro hc
        have : pfxB (p :: ps) (ch :: rest) = true := by
          show (decide (p = ch) && pfxB ps rest) = true
          rw [Bool.and_eq_true, decide_eq_true_eq]
          exact ⟨hc.1.symm, hc.2⟩
        rw [this] at h0
        exact Bool.noConfusion h0
      rw [replaceAll_cons_neg hm, List.take_succ_cons, List.drop_succ_cons,
        List.cons_append]
      rw [ihk rest (fun q hq => by
        have := hwin (q + 1) (Nat.succ_lt_succ hq)
        simpa using this)]

/-- Prefix preservation: a prefix `Y` whose window contains no pattern
match survives replacement as a prefix. -/
theorem pfxB_replaceAll_of (p : Char) (ps Y c : List Char)
    (hpre : pfxB Y c = true)
    (hwin : ∀ q, q < Y.length → pfxB (p :: ps) (c.drop q) = false) :
    pfxB Y (replaceAll (p :: ps) [' '] c) = true := by
  rw [replaceAll_window p ps Y.length c hwin, take_of_pfxB Y c hpre]
  exact pfxB_self_append Y _

/-- Preservation: an occurrence of `Y` survives replacement of a
non-overlapping pattern `X = p :: ps`. -/
theorem subB_replaceAll_pres (p : Char) (ps Y : List Char)
    (hH : ∀ pp, pp < (p :: ps).length →
      pfxB Y ((p :: ps).drop pp) = false
        ∧ pfxB ((p :: ps).drop pp) Y = false)
    (hC : ∀ q, q < Y.length → 0 < q →
      pfxB (p :: ps) (Y.drop q) = false
        ∧ pfxB (Y.drop q) (p :: ps) = false) :
    ∀ c, subB Y c = true →
      subB Y (replaceAll (p :: ps) [' '] c) = true := by
  suffices hN : ∀ (N : Nat) (c : List Char), c.length ≤ N →
      subB Y c = true → subB Y (replaceAll (p :: ps) [' '] c) = true by
    intro c
    exact hN c.length c (Nat.le_refl _)
  intro N
  induction N with
  | zero =>
    intro c hc h
    have : c = [] := List.length_eq_zero.mp (Nat.le_zero.mp hc)
    subst this
    exact h
  | succ N ihN =>
    intro c hc h
    cases c with
    | nil => exact h
    | cons ch rest =>
      by_cases hm : ch = p ∧ pfxB ps rest = true
      · have hXc : pfxB (p :: ps) (ch :: rest) = true := by
          show (decide (p = ch) && pfxB ps rest) = true
          rw [Bool.and_eq_true, decide_eq_true_eq]
          exact ⟨hm.1.symm, hm.2⟩
        have hdec := append_of_pfxB (p :: ps) (ch :: rest) hXc
        rw [hdec] at h
        have hu : subB Y ((ch :: rest).drop (p :: ps).length) = true :=
          subB_append_elim Y (p :: ps) _ hH h
        have hu' : subB Y (rest.drop ps.length) = true := hu
        have hlen : (rest.drop ps.length).length ≤ N := by
          have := List.length_drop ps.length rest
          have hr : rest.length ≤ N := Nat.le_of_succ_le_succ hc
          omega
        have := ihN (rest.drop ps.length) hlen hu'
        rw [replaceAll_cons_pos hm.1 hm.2]
        exact subB_cons_of Y ' ' _ this
      · rw [replaceAll_cons_neg hm]
        have h' : (pfxB Y (ch :: rest) || subB Y rest) = true := h
        rcases (Bool.or_eq_true _ _).mp h' with hp | hs
        · have hwin : ∀ q, q < Y.length →
              pfxB (p :: ps) ((ch :: rest).drop q) = false := by
            intro q hq
            have hceq := append_of_pfxB Y (ch :: rest) hp
            by_cases hq0 : q = 0
            · subst hq0
              rw [List.drop_zero]
              cases hx : pfxB (p :: ps) (ch :: rest) with
              | false => rfl
              | true =>
                exfalso
                rw [hceq] at hx
                rcases pfxB_append_or Y (p :: ps) _ hx with h1 | h2
                · have := (hH 0 (Nat.succ_pos _)).2
                  rw [List.drop_zero] at this
                  rw [this] at h1
                  exact Bool.noConfusion h1
                · have := (hH 0 (Nat.succ_pos _)).1
                  rw [List.drop_zero] at this
                  rw [this] at h2
                  exact Bool.noConfusion h2
            · have hq0' : 0 < q := Nat.pos_of_ne_zero hq0
              have hdropq : (ch :: rest).drop q
                  = Y.drop q ++ (ch :: rest).drop Y.length := by
                conv_lhs => rw [hceq]
                rw [List.drop_append_of_le_length (Nat.le_of_lt hq)]
              cases hx : pfxB (p :: ps) ((ch :: rest).drop q) with
              | false => rfl
              | true =>
                exfalso
                rw [hdropq] at hx
                rcases pfxB_append_or (Y.drop q) (p :: ps) _ hx with h1 | h2
                · rw [(hC q hq hq0').1] at h1
                  exact Bool.noConfusion h1
                · rw [(hC q hq hq0').2] at h2
                  exact Bool.noConfusion h2
          have hpres := pfxB_replaceAll_of p ps Y (ch :: rest) hp hwin
          rw [replaceAll_cons_neg hm] at hpres
          exact subB_of_pfxB Y _ hpres
        · exact subB_cons_of Y ch _
            (ihN rest (Nat.le_of_succ_le_succ hc) hs)

/-- Self removal: after replacing every occurrence of the (space-free)
pattern by a space, the pattern no longer occurs. -/
theorem subB_replaceAll_self (p : Char) (ps : List Char)
    (hsp : ∀ ch ∈ (p :: ps), ¬ ch = ' ') :
    ∀ c, subB (p :: ps) (replaceAll (p :: ps) [' '] c) = false := by
  suffices hN : ∀ (N : Nat) (c : List Char), c.length ≤ N →
      subB (p :: ps) (replaceAll (p :: ps) [' '] c) = false by
    intro c
    exact hN c.length c (Nat.le_refl _)
  intro N
  induction N with
  | zero =>
    intro c hc
    have : c = [] := List.length_eq_zero.mp (Nat.le_zero.mp hc)
    subst this
    rfl
  | succ N ihN =>
    intro c hc
    cases c with
    | nil => rfl
    | cons ch rest =>
      by_cases hm : ch = p ∧ pfxB ps rest = true
      · rw [replaceAll_cons_pos hm.1 hm.2]
        show (pfxB (p :: ps)
            (' ' :: replaceAll (p :: ps) [' '] (rest.drop ps.length))
          || subB (p :: ps)
            (replaceAll (p :: ps) [' '] (rest.drop ps.length))) = false
        have hpfx : pfxB (p :: ps)
            (' ' :: replaceAll (p :: ps) [' '] (rest.drop ps.length))
            = false := by
          cases hx : pfxB (p :: ps)
              (' ' :: replaceAll (p :: ps) [' '] (rest.drop ps.length)) with
          | false => rfl
          | true =>
            exfalso
            have h2 : (decide (p = ' ')
                && pfxB ps (replaceAll (p :: ps) [' ']
                  (rest.drop ps.length))) = true := hx
            rw [Bool.and_eq_true, decide_eq_true_eq] at h2
            exact hsp p (by simp) h2.1
        have hlen : (rest.drop ps.length).length ≤ N := by
          have := List.length_drop ps.length rest
          have hr : rest.length ≤ N := Nat.le_of_succ_le_succ hc
          omega
        rw [hpfx, ihN (rest.drop ps.length) hlen]
        rfl
      · rw [replaceAll_cons_neg hm]
        show (pfxB (p :: ps) (ch :: replaceAll (p :: ps) [' '] rest)
          || subB (p :: ps) (replaceAll (p :: ps) [' '] rest)) = false
        have hpfx : pfxB (p :: ps)
            (ch :: replaceAll (p :: ps) [' '] rest) = false := by
          cases hx : pfxB (p :: ps)
              (ch :: replaceAll (p :: ps) [' '] rest) with
          | false => rfl
          | true =>
            exfalso
            have hfull : pfxB (p :: ps)
                (replaceAll (p :: ps) [' '] (ch :: rest)) = true := by
              rw [replaceAll_cons_neg hm]
              exact hx
            have := pfxB_replaceAll_imp p ps (ch :: rest) (p :: ps)
              hsp hfull
            have h2 : (decide (p = ch) && pfxB ps rest) = true := this
            rw [Bool.and_eq_true, decide_eq_true_eq] at h2
            exact hm ⟨h2.1.symm, h2.2⟩
        rw [hpfx, ihN rest (Nat.le_of_succ_le_succ hc)]
        rfl

/-- Stripping leading whitespace neither creates nor destroys
occurrences of a nonempty whitespace-free string. -/
theorem subB_dropWhileWs_eq (Y : List Char) (hY0 : Y ≠ [])
    (hYw : ∀ ch ∈ Y, isPyWs ch = false) :
    ∀ c, subB Y (c.dropWhile isPyWs) = subB Y c := by
  intro c
  induction c with
  | nil => rfl
  | cons ch rest ih =>
    by_cases hw : isPyWs ch = true
    · rw [List.dropWhile_cons, if_pos hw, ih]
      cases Y with
      | nil => exact absurd rfl hY0
      | cons y ys =>
        have hpfx : pfxB (y :: ys) (ch :: rest) = false := by
          show (decide (y = ch) && pfxB ys rest) = false
          by_cases hy : y = ch
          · exfalso
            have := hYw y (by simp)
            rw [hy, hw] at this
            exact Bool.noConfusion this
          · rw [decide_eq_false hy]
            rfl
        show _ = (pfxB (y :: ys) (ch :: rest) || subB (y :: ys) rest)
        rw [hpfx]
        simp
    · rw [List.dropWhile_cons, if_neg hw]

/-- `str.strip()` neither creates nor destroys occurrences of a
nonempty whitespace-free string. -/
theorem subB_pyStrip_eq (Y : List Char) (hY0 : Y ≠ [])
    (hYw : ∀ ch ∈ Y, isPyWs ch = false) (c : List Char) :
    subB Y (pyStrip c) = subB Y c := by
  have hY0' : Y.reverse ≠ [] := by
    intro hh
    exact hY0 (by simpa using congrArg List.reverse hh)
  have hYw' : ∀ ch ∈ Y.reverse, isPyWs ch = false := by
    intro ch hch
    exact hYw ch (List.mem_reverse.mp hch)
  show subB Y (pyLstrip (pyRstrip c)) = subB Y c
  rw [pyLstrip, subB_dropWhileWs_eq Y hY0 hYw]
  show subB Y ((c.reverse.dropWhile isPyWs).reverse) = subB Y c
  rw [subB_reverse Y (c.reverse.dropWhile isPyWs)]
  rw [subB_dropWhileWs_eq Y.reverse hY0' hYw' c.reverse]
  rw [subB_reverse Y.reverse c]
  rw [List.reverse_reverse]

/-- Replacement of a non-overlapping pattern preserves the occurrence
status of every other marker. -/
theorem subB_replaceAll_eq (p : Char) (ps Y : List Char)
    (hYsp : ∀ ch ∈ Y, ¬ ch = ' ')
    (hpair : pairOK (p :: ps) Y) (c : List Char) :
    subB Y (replaceAll (p :: ps) [' '] c) = subB Y c := by
  obtain ⟨hA1, hA2, hA3, hA4⟩ := hpair
  cases hc : subB Y c with
  | true =>
    exact subB_replaceAll_pres p ps Y
      (fun pp hpp => ⟨hA1 pp hpp, hA2 pp hpp⟩)
      (fun q hq hq0 => ⟨hA3 q hq hq0, hA4 q hq hq0⟩) c hc
  | false =>
    cases hra : subB Y (replaceAll (p :: ps) [' '] c) with
    | false => rfl
    | true =>
      exfalso
      have := subB_replaceAll_imp p ps Y hYsp c hra
      rw [hc] at this
      exact Bool.noConfusion this

/-! Global facts about the marker table, checked by computation. -/

theorem markers_ne_nil : ∀ X ∈ markers, X ≠ [] := by decide

theorem markers_space_free : ∀ X ∈ markers, ∀ ch ∈ X, ¬ ch = ' ' := by
  decide

theorem markers_ws_free : ∀ X ∈ markers, ∀ ch ∈ X, isPyWs ch = false := by
  decide

theorem markers_pairOK :
    ∀ X ∈ markers, ∀ Y ∈ markers, ¬ X = Y → pairOK X Y := by decide

theorem markers_nodup : markers.Nodup := by decide

theorem tag_names_nodup : (tagsTable.map (fun pr => pr.2)).Nodup := by
  decide

theorem linkMarker_mem_markers : linkMarker ∈ markers := by decide

/-- One replace-and-strip pass for marker `X` leaves every other
marker's occurrence status unchanged. -/
theorem subB_step_eq (X Y : List Char) (hX : X ∈ markers)
    (hY : Y ∈ markers) (hne : ¬ X = Y) (c : List Char) :
    subB Y (pyStrip (replaceAll X [' '] c)) = subB Y c := by
  obtain ⟨p, ps, rfl⟩ := List.exists_cons_of_ne_nil (markers_ne_nil X hX)
  rw [subB_pyStrip_eq Y (markers_ne_nil Y hY) (markers_ws_free Y hY)]
  exact subB_replaceAll_eq p ps Y
    (markers_space_free Y hY) (markers_pairOK _ hX Y hY hne) c

/-- One replace-and-strip pass for marker `X` removes every occurrence
of `X` itself. -/
theorem subB_step_self (X : List Char) (hX : X ∈ markers)
    (c : List Char) : subB X (pyStrip (replaceAll X [' '] c)) = false := by
  obtain ⟨p, ps, hcons⟩ := List.exists_cons_of_ne_nil (markers_ne_nil X hX)
  rw [subB_pyStrip_eq X (markers_ne_nil X hX) (markers_ws_free X hX)]
  rw [hcons]
  subst hcons
  exact subB_replaceAll_self p ps (markers_space_free _ hX) c

/-- The marker loop of `_annotate_and_clean_html`, run on any suffix of
the table over a link-marker-free content: it appends to `found` the tag
names of exactly the markers of the suffix occurring in the content, in
table order, touches no other field, and removes those markers. -/
theorem annotHtmlLoop_spec (ed : Bool) :
    ∀ (rest : List (List Char × List Char)), rest.Sublist tagsTable →
    ∀ (d : AList) (found doms : List (List Char)) (c : List Char),
      dGet d (strL ("content")) = some (Val.s c) →
      subB linkMarker c = false →
      ∃ d' c',
        annotHtmlLoop ed rest d found doms
          = some (d', found ++ (rest.filter
              (fun pr => subB pr.1 c)).map (fun pr => pr.2), doms) ∧
        dGet d' (strL ("content")) = some (Val.s c') ∧
        (∀ k, ¬ k = strL ("content") → dGet d' k = dGet d k) ∧
        (∀ Y, Y ∈ markers → subB Y c'
            = (subB Y c
              && !(decide (Y ∈ rest.map (fun pr => pr.1))))) := by
  intro rest
  induction rest with
  | nil =>
    intro _ d found doms c hc _
    refine ⟨d, c, ?_, hc, fun _ _ => rfl, ?_⟩
    · show some (d, found, doms) = _
      rw [List.filter_nil, List.map_nil, List.append_nil]
    · intro Y _
      simp
  | cons pr rest' ih =>
    intro hsub d found doms c hc hlm
    obtain ⟨mk, tag⟩ := pr
    have hmem : (mk, tag) ∈ tagsTable :=
      hsub.subset (List.mem_cons_self _ _)
    have hsub' : rest'.Sublist tagsTable := List.sublist_of_cons_sublist hsub
    have hmkm : mk ∈ markers := by
      show mk ∈ tagsTable.map (fun p => p.1)
      exact List.mem_map.mpr ⟨(mk, tag), hmem, rfl⟩
    have hrestfst : ((mk :: rest'.map (fun pr => pr.1))).Nodup := by
      have h1 : (((mk, tag) :: rest').map
          (fun pr => pr.1)).Sublist (tagsTable.map (fun p => p.1)) :=
        List.Sublist.map _ hsub
      exact List.Nodup.sublist h1 markers_nodup
    have hmknotin : mk ∉ rest'.map (fun pr => pr.1) :=
      (List.nodup_cons.mp hrestfst).1
    have hstep : annotHtmlLoop ed ((mk, tag) :: rest') d found doms
        = (if subB mk c then
            if mk = linkMarker ∧ ed = true then
              let st := (pySplit ' ' c).foldl linkTokenStep ([], [])
              annotHtmlLoop ed rest'
                (dSet d (strL ("content")) (Val.s (pyRstrip st.1)))
                (found ++ [tag]) (doms ++ st.2)
            else
              annotHtmlLoop ed rest'
                (dSet d (strL ("content"))
                  (Val.s (pyStrip (replaceAll mk [' '] c))))
                (found ++ [tag]) doms
          else annotHtmlLoop ed rest' d found doms) := by
      rw [show annotHtmlLoop ed ((mk, tag) :: rest') d found doms
          = (match dGet d (strL ("content")) with
            | some (Val.s c0) =>
              if subB mk c0 then
                if mk = linkMarker ∧ ed = true then
                  let st := (pySplit ' ' c0).foldl linkTokenStep ([], [])
                  annotHtmlLoop ed rest'
                    (dSet d (strL ("content")) (Val.s (pyRstrip st.1)))
                    (found ++ [tag]) (doms ++ st.2)
                else
                  annotHtmlLoop ed rest'
                    (dSet d (strL ("content"))
                      (Val.s (pyStrip (replaceAll mk [' '] c0))))
                    (found ++ [tag]) doms
              else annotHtmlLoop ed rest' d found doms
            | _ => none) from rfl, hc]
    rw [hstep]
    by_cases hmk : subB mk c = true
    · rw [if_pos hmk]
      have hnl : ¬ (mk = linkMarker ∧ ed = true) := by
        rintro ⟨hml, _⟩
        rw [hml, hlm] at hmk
        exact Bool.noConfusion hmk
      rw [if_neg hnl]
      have hcnext : dGet (dSet d (strL ("content"))
          (Val.s (pyStrip (replaceAll mk [' '] c)))) (strL ("content"))
          = some (Val.s (pyStrip (replaceAll mk [' '] c))) :=
        dGet_dSet_same d _ _
      have hlmnext : subB linkMarker (pyStrip (replaceAll mk [' '] c))
          = false := by
        by_cases hml : mk = linkMarker
        · rw [← hml]
          exact subB_step_self mk hmkm c
        · rw [subB_step_eq mk linkMarker hmkm linkMarker_mem_markers hml c]
          exact hlm
      obtain ⟨d', c', hloop, hcd', hoth, hsubs⟩ :=
        ih hsub' (dSet d (strL ("content"))
          (Val.s (pyStrip (replaceAll mk [' '] c))))
          (found ++ [tag]) doms (pyStrip (replaceAll mk [' '] c))
          hcnext hlmnext
      refine ⟨d', c', ?_, hcd', ?_, ?_⟩
      · rw [hloop]
        have hfeq : rest'.filter
            (fun pr => subB pr.1 (pyStrip (replaceAll mk [' '] c)))
            = rest'.filter (fun pr => subB pr.1 c) := by
          refine List.filter_congr (fun pr hpr => ?_)
          have hprm : pr.1 ∈ markers := by
            show pr.1 ∈ tagsTable.map (fun p => p.1)
            exact List.mem_map.mpr ⟨pr, hsub'.subset hpr, rfl⟩
          have hprne : ¬ mk = pr.1 := by
            intro hh
            exact hmknotin (hh ▸ List.mem_map.mpr ⟨pr, hpr, rfl⟩)
          rw [subB_step_eq mk pr.1 hmkm hprm hprne c]
        have hfc : List.filter (fun pr => subB pr.1 c) ((mk, tag) :: rest')
            = (mk, tag) :: List.filter (fun pr => subB pr.1 c) rest' := by
          rw [List.filter_cons]
          simp [hmk]
        rw [hfeq, hfc, List.map_cons, List.append_assoc,
          List.singleton_append]
      · intro k hk
        rw [hoth k hk, dGet_dSet_ne d _ k _ hk]
      · intro Y hYm
        rw [hsubs Y hYm]
        by_cases hYmk : Y = mk
        · subst hYmk
          rw [subB_step_self Y hmkm c]
          have hYin : Y ∈ ((Y, tag) :: rest').map (fun pr => pr.1) := by
            simp
          rw [decide_eq_true hYin]
          simp
        · have hne' : ¬ mk = Y := fun hh => hYmk hh.symm
          rw [subB_step_eq mk Y hmkm hYm hne' c]
          have hmem_iff : (Y ∈ ((mk, tag) :: rest').map (fun pr => pr.1))
              ↔ (Y ∈ rest'.map (fun pr => pr.1)) := by
            simp only [List.map_cons, List.mem_cons]
            constructor
            · rintro (hh | hh)
              · exact absurd hh hYmk
              · exact hh
            · exact Or.inr
          by_cases hYr : Y ∈ rest'.map (fun pr => pr.1)
          · rw [decide_eq_true hYr, decide_eq_true (hmem_iff.mpr hYr)]
          · rw [decide_eq_false hYr,
              decide_eq_false (fun hh => hYr (hmem_iff.mp hh))]
    · rw [if_neg hmk]
      have hmkf : subB mk c = false := by simpa using hmk
      obtain ⟨d', c', hloop, hcd', hoth, hsubs⟩ :=
        ih hsub' d found doms c hc hlm
      refine ⟨d', c', ?_, hcd', hoth, ?_⟩
      · have hfc : List.filter (fun pr => subB pr.1 c) ((mk, tag) :: rest')
            = List.filter (fun pr => subB pr.1 c) rest' := by
          rw [List.filter_cons]
          simp [hmkf]
        rw [hloop, hfc]
      · intro Y hYm
        rw [hsubs Y hYm]
        by_cases hYmk : Y = mk
        · subst hYmk
          rw [hmkf]
          simp
        · have hmem_iff : (Y ∈ ((mk, tag) :: rest').map (fun pr => pr.1))
              ↔ (Y ∈ rest'.map (fun pr => pr.1)) := by
            simp only [List.map_cons, List.mem_cons]
            constructor
            · rintro (hh | hh)
              · exact absurd hh hYmk
              · exact hh
            · exact Or.inr
          by_cases hYr : Y ∈ rest'.map (fun pr => pr.1)
          · rw [decide_eq_true hYr, decide_eq_true (hmem_iff.mpr hYr)]
          · rw [decide_eq_false hYr,
              decide_eq_false (fun hh => hYr (hmem_iff.mp hh))]

/-- C4 (counterexample): in the record whose content is
`"thisisah2tag thisisah1tag"` the h2 marker's first occurrence (index 0)
precedes the h1 marker's (index 13), yet `_annotate_and_clean_html`
records `html_tags = [h1, h2]` — the table's iteration order, not the
order of first occurrence in the content. -/
theorem annot_html_order_counterexample :
    ((_annotate_and_clean_html c4record true).map
        (fun r => dGet r (strL ("html_tags"))))
      = some (some (Val.xs [strL ("h1"), strL ("h2")])) ∧
    findSub (strL ("thisisah2tag")) c4content = some 0 ∧
    findSub (strL ("thisisah1tag")) c4content = some 13 := by
  refine ⟨?_, ?_, ?_⟩ <;> decide

/-- C4 (amended): on every record whose content holds a string free of
the link marker, `_annotate_and_clean_html` succeeds and sets
`html_tags` to the tag names of exactly the marker types occurring in
the content — one entry per type (the list is duplicate-free), in the
tag table's iteration order — and strips every marker from the stored
content. -/
theorem annot_html_table_order (ed : Bool) (d : AList) (c : List Char)
    (hc : dGet d (strL ("content")) = some (Val.s c))
    (hlm : subB linkMarker c = false) :
    ∃ r, _annotate_and_clean_html d ed = some r ∧
      dGet r (strL ("html_tags"))
        = some (Val.xs ((tagsTable.filter
            (fun pr => subB pr.1 c)).map (fun pr => pr.2))) ∧
      ((tagsTable.filter (fun pr => subB pr.1 c)).map
          (fun pr => pr.2)).Nodup ∧
      ∃ c', dGet r (strL ("content")) = some (Val.s c') ∧
        ∀ mk ∈ markers, subB mk c' = false := by
  obtain ⟨d', c', hloop, hcd', hoth, hsubs⟩ :=
    annotHtmlLoop_spec ed tagsTable (List.Sublist.refl _) d [] [] c hc hlm
  refine ⟨dSet (dSet d' (strL ("html_tags"))
      (Val.xs ((tagsTable.filter
        (fun pr => subB pr.1 c)).map (fun pr => pr.2))))
      (strL ("domains")) (Val.xs []), ?_, ?_, ?_, c', ?_, ?_⟩
  · rw [show _annotate_and_clean_html d ed
        = (match annotHtmlLoop ed tagsTable d [] [] with
          | none => none
          | some (d', found, doms) =>
            some (dSet (dSet d' (strL ("html_tags")) (Val.xs found))
              (strL ("domains")) (Val.xs doms))) from rfl, hloop,
      List.nil_append]
  · rw [dGet_dSet_ne _ _ _ _ (by decide), dGet_dSet_same]
  · exact List.Nodup.sublist
      (List.Sublist.map _ (List.filter_sublist tagsTable)) tag_names_nodup
  · rw [dGet_dSet_ne _ _ _ _ (by decide), dGet_dSet_ne _ _ _ _ (by decide)]
    exact hcd'
  · intro mk hm
    rw [hsubs mk hm, decide_eq_true (show mk ∈ tagsTable.map
      (fun pr => pr.1) from hm)]
    simp

/-- C4 (witness for the amended theorem): the record
`{id: 3, content: "foo thisisah2tag bar thisisah1tag"}`. -/
theorem annot_html_table_order_witness :
    dGet c4wRecord (strL ("content")) = some (Val.s c4wContent) ∧
    subB linkMarker c4wContent = false ∧
    (∃ r, _annotate_and_clean_html c4wRecord true = some r ∧
      dGet r (strL ("html_tags"))
        = some (Val.xs ((tagsTable.filter
            (fun pr => subB pr.1 c4wContent)).map (fun pr => pr.2))) ∧
      ((tagsTable.filter (fun pr => subB pr.1 c4wContent)).map
          (fun pr => pr.2)).Nodup ∧
      ∃ c', dGet r (strL ("content")) = some (Val.s c') ∧
        ∀ mk ∈ markers, subB mk c' = false) :=
  ⟨by decide, by decide,
    annot_html_table_order true c4wRecord c4wContent (by decide) (by decide)⟩

theorem regexOut_idempotent_witness :
    subB ['?', '.'] (regex_out_punctuation_and_white_space (strL ("text.")))
        = false
    ∧ (regex_out_punctuation_and_white_space (strL ("text."))).head?
        ≠ some '.'
    ∧ regex_out_punctuation_and_white_space
          (regex_out_punctuation_and_white_space (strL ("text.")))
        = regex_out_punctuation_and_white_space (strL ("text.")) :=
  ⟨by decide, by decide,
    regexOut_idempotent (strL ("text.")) (by decide) (by decide)⟩

end AutoDiscern
